import Mathlib

/-
Verification development for the `openhands_aci` editor module
(`openhands_aci/editor/editor.py`).

The editor works on whole-file text. We model Python strings as lists of
characters (`Str`), the in-process editor state (files on disk plus the
per-path undo history) as `EditorState`, and the commands `create`,
`str_replace`, `insert` and `undo_edit` as pure state transformers that
return the new state together with an optional error, mirroring the
control flow of `OHEditor.__call__` and the methods it dispatches to.

Python string builtins used by the source (`str.count`, `str.replace`,
`str.find`, `str.expandtabs`, `str.split`, `str.splitlines`) are modelled
after CPython semantics.  `re.sub` is modelled for the fragment of regex
patterns actually needed by the claims: patterns built from literal
characters and the dot metacharacter, where the DOTALL flag decides
whether dot matches a newline.
-/

namespace OHEd

/-- Python strings are modelled as lists of characters. -/
abbrev Str := List Char

/-- Helper for CPython str.count with a nonempty needle: scan left to
right; after a match, skip the remaining needle length (non-overlapping
count).  `skip` is the number of characters still to be skipped after the
latest match. -/
def countGo (sub : Str) : Str → Nat → Nat
  | [], _ => 0
  | _ :: t, Nat.succ k => countGo sub t k
  | c :: t, 0 =>
    if sub.isPrefixOf (c :: t) then 1 + countGo sub t (sub.length - 1)
    else countGo sub t 0

/-- CPython str.count: number of non-overlapping occurrences of sub in s,
scanning left to right; an empty needle is counted len+1 times. -/
def pyCount (s sub : Str) : Nat :=
  if sub.isEmpty then s.length + 1 else countGo sub s 0

/-- CPython str.replace with an empty needle: the replacement is inserted
before every character and at the end. -/
def replaceEmptySep (new : Str) : Str → Str
  | [] => new
  | c :: t => new ++ c :: replaceEmptySep new t

/-- Helper for CPython str.replace with a nonempty needle: replace each
non-overlapping occurrence, scanning left to right (same skip discipline
as countGo). -/
def replGo (sub new : Str) : Str → Nat → Str
  | [], _ => []
  | _ :: t, Nat.succ k => replGo sub new t k
  | c :: t, 0 =>
    if sub.isPrefixOf (c :: t) then new ++ replGo sub new t (sub.length - 1)
    else c :: replGo sub new t 0

/-- CPython str.replace: replace every non-overlapping occurrence of sub
by new, scanning left to right. -/
def pyReplace (s sub new : Str) : Str :=
  if sub.isEmpty then replaceEmptySep new s else replGo sub new s 0

/-- Helper for CPython str.find: first index at or after i where sub
occurs in the suffix s (i is the absolute index of the head of s). -/
def findGo (sub : Str) : Str → Nat → Option Nat
  | [], i => if sub.isPrefixOf ([] : Str) then some i else none
  | c :: t, i => if sub.isPrefixOf (c :: t) then some i else findGo sub t (i + 1)

/-- CPython str.find(sub, start): least index at or after start where sub
occurs in s, if any (None models the -1 return). -/
def pyFind (s sub : Str) (start : Nat) : Option Nat :=
  if start ≤ s.length then findGo sub (s.drop start) start else none

/-- The occurrence-scanning loop of OHEditor.str_replace (editor.py lines
277 to 286): repeatedly find old_str from start_idx, record the match
index, and resume searching from one past the match start. -/
def occStartsGo (content old : Str) (start : Nat) : List Nat :=
  match h : pyFind content old start with
  | none => []
  | some idx => idx :: occStartsGo content old (idx + 1)
termination_by content.length + 1 - start
decreasing_by
  have hb : ∀ (s sub : Str) (i j : Nat), findGo sub s i = some j → i ≤ j ∧ j ≤ i + s.length := by
    intro s
    induction s with
    | nil =>
      intro sub i j hj
      simp only [findGo] at hj
      split at hj
      · cases hj; omega
      · cases hj
    | cons c t ih =>
      intro sub i j hj
      simp only [findGo] at hj
      split at hj
      · cases hj; simp
      · have := ih sub (i + 1) j hj
        simp only [List.length_cons]
        omega
  have hf : start ≤ idx ∧ idx ≤ content.length := by
    unfold pyFind at h
    split at h
    · have := hb (content.drop start) old start idx h
      simp only [List.length_drop] at this
      omega
    · cases h
  omega

/-- The 1-indexed starting line numbers reported by the AmbiguousMatch
error: for each recorded match index, one plus the number of newline
characters before it (editor.py line 284). -/
def ambiguousLineNums (content old : Str) : List Nat :=
  (occStartsGo content old 0).map (fun idx => (content.take idx).count '\n' + 1)

/-- CPython str.split with separator a single newline character. -/
def splitNl : Str → List Str
  | [] => [[]]
  | c :: t =>
    if c = '\n' then [] :: splitNl t
    else
      match splitNl t with
      | [] => [[c]]
      | l :: r => (c :: l) :: r

/-- Joining a list of lines with a newline separator (the '\n'.join of
the source). -/
def joinNl : List Str → Str
  | [] => []
  | [l] => l
  | l :: r => l ++ '\n' :: joinNl r

/-- Helper for CPython str.expandtabs (tab stop 8): col is the current
column; a tab becomes spaces up to the next multiple of 8, and newline or
carriage return resets the column. -/
def expandtabsGo : Nat → Str → Str
  | _, [] => []
  | col, c :: t =>
    if c = '\t' then List.replicate (8 - col % 8) ' ' ++ expandtabsGo (col + (8 - col % 8)) t
    else if c = '\n' ∨ c = '\r' then c :: expandtabsGo 0 t
    else c :: expandtabsGo (col + 1) t

/-- CPython str.expandtabs with the default tab stop of 8. -/
def expandtabs (s : Str) : Str := expandtabsGo 0 s

/-- The line boundary characters recognised by CPython str.splitlines. -/
def lineBoundary (c : Char) : Bool :=
  c = '\n' || c = '\r' || c = '\x0b' || c = '\x0c' ||
  c = Char.ofNat 28 || c = Char.ofNat 29 || c = Char.ofNat 30 ||
  c = Char.ofNat 133 || c = Char.ofNat 8232 || c = Char.ofNat 8233

/-- Drops one leading line feed, used to treat a carriage return followed
by a line feed as a single boundary. -/
def dropLf (s : Str) : Str :=
  match s with
  | [] => []
  | c :: t => if c = '\n' then t else c :: t

/-- CPython str.splitlines (keepends false): split on every line boundary
character, with a carriage return plus line feed pair as one boundary; a
trailing boundary produces no trailing empty line. -/
def splitlinesGo : Str → List Str
  | [] => []
  | c :: t =>
    if lineBoundary c then [] :: splitlinesGo (if c = '\r' then dropLf t else t)
    else
      match splitlinesGo t with
      | [] => [[c]]
      | l :: r => (c :: l) :: r
termination_by s => s.length
decreasing_by
  · have hd : (dropLf t).length ≤ t.length := by
      cases t with
      | nil => simp [dropLf]
      | cons c2 t2 =>
        simp only [dropLf]
        split
        · simp
        · simp
    split
    · simp only [List.length_cons]; omega
    · simp
  · simp

/-- A token of the modelled regex fragment: a literal character or the
dot metacharacter. -/
inductive RTok where
  | lit (c : Char)
  | dot
deriving DecidableEq

/-- Model of re.compile for the fragment of patterns containing no
metacharacter other than the dot: each dot matches one character
(any character under DOTALL, any character except newline otherwise),
every other character matches itself. -/
def parsePattern (s : Str) : List RTok :=
  s.map (fun c => if c = '.' then RTok.dot else RTok.lit c)

/-- Whether a single token matches a single character, given the DOTALL
flag. -/
def tokMatches (dotAll : Bool) (t : RTok) (c : Char) : Bool :=
  match t with
  | .lit d => c = d
  | .dot => dotAll || !(c = '\n')

/-- Whether the pattern matches at the head of the string (consuming
exactly pattern-length characters). -/
def matchesAt (dotAll : Bool) : List RTok → Str → Bool
  | [], _ => true
  | _ :: _, [] => false
  | t :: pt, c :: s => tokMatches dotAll t c && matchesAt dotAll pt s

/-- Index of the leftmost match of the pattern in the string, if any. -/
def reFindFirst (dotAll : Bool) (pat : List RTok) : Str → Option Nat
  | [] => if matchesAt dotAll pat [] then some 0 else none
  | c :: t =>
    if matchesAt dotAll pat (c :: t) then some 0
    else (reFindFirst dotAll pat t).map (fun n => n + 1)

/-- Model of re.sub with count 1: replace only the leftmost match. -/
def reSubFirst (dotAll : Bool) (pat : List RTok) (new : Str) : Str → Str
  | [] => if matchesAt dotAll pat [] then new else []
  | c :: t =>
    if matchesAt dotAll pat (c :: t) then new ++ List.drop pat.length (c :: t)
    else c :: reSubFirst dotAll pat new t

/-- Model of re.sub with count 0: replace every match, scanning left to
right and resuming after each match (after an empty match the next
character is copied and scanning resumes one position later). -/
def reSubAll (dotAll : Bool) (pat : List RTok) (new : Str) : Str → Str
  | [] => if matchesAt dotAll pat [] then new else []
  | c :: t =>
    if matchesAt dotAll pat (c :: t) then
      match pat with
      | [] => new ++ c :: reSubAll dotAll [] new t
      | _ :: pr => new ++ reSubAll dotAll pat new (List.drop pr.length t)
    else c :: reSubAll dotAll pat new t
termination_by s => s.length
decreasing_by
  · simp
  · simp only [List.length_cons]
    have := List.length_drop pr.length t
    omega
  · simp

/-- Python range(a, b) over integers, as produced for the line_range loop
(editor.py line 256). -/
def pyRange (a b : Int) : List Int :=
  (List.range (b - a).toNat).map (fun k => a + (k : Int))

/-- Minimum of the nonempty list x :: xs (Python min of a nonempty
list). -/
def listMin : Int → List Int → Int
  | x, [] => x
  | x, y :: ys => listMin (min x y) ys

/-- Maximum of the nonempty list x :: xs (Python max of a nonempty
list). -/
def listMax : Int → List Int → Int
  | x, [] => x
  | x, y :: ys => listMax (max x y) ys

/-- Which validation site produced an invalid-line error: the pattern
word interpolated into the ToolError message of validate_min_or_max
(editor.py lines 189 to 209). -/
inductive BoundKind where
  | lineNumber
  | lineRange
  | deleteLines
  | deleteRange
deriving DecidableEq

/-- The errors raised by the modelled commands, carrying the data that
the Python exception messages interpolate.  emptySeparator models the
ValueError raised by str.split with an empty separator at editor.py line
309, after the file has already been written and history recorded. -/
inductive ToolErr where
  | noopReplace
  | invalidLines (kind : BoundKind) (bound : Int) (numLines : Nat)
  | rangeOrder (kind : BoundKind) (start stop : Int)
  | notFound (path : Nat) (old : Str)
  | ambiguousMatch (old : Str) (lineNums : List Nat)
  | invalidInsertLine (value : Int) (numLines : Nat)
  | noHistory (path : Nat)
  | pathNotFound (path : Nat)
  | pathExists (path : Nat)
  | emptySeparator
deriving DecidableEq

/-- The optional parameters of OHEditor.str_replace.  A parameter whose
Python default is None or an empty list is modelled by the empty list or
by none; Python truthiness of the parameter corresponds to nonemptiness
or isSome. -/
structure ReplaceParams where
  lineNumbers : List Int
  lineRange : Option (Int × Int)
  lineAll : Bool
  deleteLines : List Int
  deleteRange : Option (Int × Int)
  regex : Bool
deriving DecidableEq

/-- The in-process editor state: the text files on disk (paths are
abstract) and the per-path undo history of OHEditor._file_history.
Python appends snapshots at the right end of the list and pops from the
right; the model stores the same stack with its most recent entry first,
pushing and popping at the head. -/
structure EditorState where
  files : Nat → Option Str
  history : Nat → List Str

/-- Writes content to the file at path p (OHEditor.write_file). -/
def writeFile (st : EditorState) (p : Nat) (content : Str) : EditorState :=
  EditorState.mk (fun q => if q = p then some content else st.files q) st.history

/-- Pushes a snapshot onto the history stack of path p
(self._file_history[path].append). -/
def pushHist (st : EditorState) (p : Nat) (snap : Str) : EditorState :=
  EditorState.mk st.files (fun q => if q = p then snap :: st.history q else st.history q)

/-- validate_min_or_max (editor.py lines 189 to 193): reject a minimum
that is not positive, then a maximum above the line count. -/
def validateMinOrMax (kind : BoundKind) (minLine maxLine : Int) (numLines : Nat) : Option ToolErr :=
  if minLine ≤ 0 then some (.invalidLines kind minLine numLines)
  else if (numLines : Int) < maxLine then some (.invalidLines kind maxLine numLines)
  else none

/-- Validation of a truthy list parameter: validate_min_or_max applied to
its minimum and maximum (editor.py lines 196 to 197 and 203 to 204). -/
def checkList (kind : BoundKind) (l : List Int) (numLines : Nat) : Option ToolErr :=
  match l with
  | [] => none
  | x :: xs => validateMinOrMax kind (listMin x xs) (listMax x xs) numLines

/-- Validation of a truthy range parameter: bounds via validate_min_or_max
followed by the start-not-after-end check (editor.py lines 198 to 202 and
205 to 209). -/
def checkRange (kind : BoundKind) (r : Option (Int × Int)) (numLines : Nat) : Option ToolErr :=
  match r with
  | none => none
  | some (s, e) =>
    match validateMinOrMax kind (min s e) (max s e) numLines with
    | some err => some err
    | none => if s > e then some (.rangeOrder kind s e) else none

/-- The full validation block of str_replace (editor.py lines 195 to
209), run in source order before any branch mutates anything. -/
def validateParams (prm : ReplaceParams) (numLines : Nat) : Option ToolErr :=
  match checkList .lineNumber prm.lineNumbers numLines with
  | some e => some e
  | none =>
    match checkRange .lineRange prm.lineRange numLines with
    | some e => some e
    | none =>
      match checkList .deleteLines prm.deleteLines numLines with
      | some e => some e
      | none => checkRange .deleteRange prm.deleteRange numLines

/-- The delete_lines branch (editor.py lines 212 to 215): keep each line
whose 0-indexed position is not among the supplied positions shifted down
by one. -/
def deleteByNumbers (lines : List Str) (dl : List Int) : List Str :=
  let zeroIdx := dl.map (fun i => i - 1)
  ((lines.enum.filter (fun pr => !(zeroIdx.contains (pr.1 : Int)))).map (fun pr => pr.2))

/-- The delete_range branch (editor.py line 229): keep each line whose
1-indexed position is outside the inclusive range. -/
def deleteByRange (lines : List Str) (s e : Int) : List Str :=
  ((lines.enum.filter
    (fun pr => !(decide (s ≤ (pr.1 : Int) + 1) && decide ((pr.1 : Int) + 1 ≤ e)))).map
    (fun pr => pr.2))

/-- The per-line substitution of the line_numbers and line_range branches
(editor.py lines 248 to 251 and 258 to 261): a DOTALL regex substitution
of every match in the line if regex is set, else a literal
str.replace. -/
def lineSub (regex : Bool) (old new : Str) (line : Str) : Str :=
  if regex then reSubAll true (parsePattern old) new line else pyReplace line old new

/-- The in-place update loop of the line_numbers and line_range branches
(editor.py lines 246 to 251 and 256 to 261): for each 0-indexed position,
if it is below the line count, rewrite that line.  Validation has already
forced the positions to be nonnegative, which the Int.toNat conversion
relies on (Python would index from the end on a negative position, a case
validation rules out). -/
def applyLines (lines : List Str) (idxs : List Int) (f : Str → Str) : List Str :=
  idxs.foldl
    (fun ls i =>
      if i < (ls.length : Int) then ls.set i.toNat (f (ls.getD i.toNat [])) else ls)
    lines

/-- The replacement resolution of str_replace after the delete branches
(editor.py lines 242 to 300): line_numbers, then line_range, then the
single-occurrence default, unless line_all is set, in which case a DOTALL
regex substitution of every match or a per-line literal replace over
str.splitlines.  fileContent, old and new are already tab-expanded. -/
def resolveReplace (p : Nat) (fileContent old new : Str) (prm : ReplaceParams) :
    Except ToolErr Str :=
  let lines := splitNl fileContent
  if !prm.lineAll then
    if !prm.lineNumbers.isEmpty then
      .ok (joinNl (applyLines lines (prm.lineNumbers.map (fun i => i - 1)) (lineSub prm.regex old new)))
    else
      match prm.lineRange with
      | some (s, e) =>
        .ok (joinNl (applyLines lines (pyRange (s - 1) e) (lineSub prm.regex old new)))
      | none =>
        if prm.regex then .ok (reSubFirst false (parsePattern old) new fileContent)
        else
          let occurrences := pyCount fileContent old
          if occurrences = 0 then .error (.notFound p old)
          else if occurrences > 1 then
            .error (.ambiguousMatch old (ambiguousLineNums fileContent old))
          else .ok (pyReplace fileContent old new)
  else
    if prm.regex then .ok (reSubAll true (parsePattern old) new fileContent)
    else .ok (joinNl ((splitlinesGo fileContent).map (fun l => pyReplace l old new)))

/-- The tab expansion of an optional new_str, empty when absent
(editor.py line 181: new_str.expandtabs() if new_str is not None else
the empty string). -/
def optExpand : Option Str → Str
  | some n => expandtabs n
  | none => []

/-- OHEditor.str_replace (editor.py lines 100 to 332) as a state
transformer: read and tab-expand, validate the line parameters, run the
delete branches (which write, push history and return early), otherwise
resolve the replacement, write the new content, push the pre-mutation
expanded content, and finally fail with the empty-separator ValueError of
line 309 when old_str is empty (the snippet computation splits the
content on old_str); in that case the mutation and the history push have
already happened. -/
def strReplaceMethod (st : EditorState) (p : Nat) (oldStr : Str) (newStr : Option Str)
    (prm : ReplaceParams) : EditorState × Option ToolErr :=
  match st.files p with
  | none => (st, some (.pathNotFound p))
  | some raw =>
    let fileContent := expandtabs raw
    let old := expandtabs oldStr
    let new := optExpand newStr
    let numLines := (splitNl fileContent).length
    match validateParams prm numLines with
    | some e => (st, some e)
    | none =>
      if !prm.deleteLines.isEmpty then
        let newContent := joinNl (deleteByNumbers (splitNl fileContent) prm.deleteLines)
        (pushHist (writeFile st p newContent) p fileContent, none)
      else
        match prm.deleteRange with
        | some (s, e) =>
          let newContent := joinNl (deleteByRange (splitNl fileContent) s e)
          (pushHist (writeFile st p newContent) p fileContent, none)
        | none =>
          match resolveReplace p fileContent old new prm with
          | .error e => (st, some e)
          | .ok newContent =>
            let st1 := pushHist (writeFile st p newContent) p fileContent
            if old.isEmpty then (st1, some .emptySeparator) else (st1, none)

/-- OHEditor.insert (editor.py lines 435 to 497): tab-expand file and new
text, reject an insertion point outside 0..num_lines, else splice the new
lines in after the given number of existing lines, write, and push the
expanded pre-mutation content. -/
def insertMethod (st : EditorState) (p : Nat) (insertLine : Int) (newStr : Str) :
    EditorState × Option ToolErr :=
  match st.files p with
  | none => (st, some (.pathNotFound p))
  | some raw =>
    let fileText := expandtabs raw
    let new := expandtabs newStr
    let lines := splitNl fileText
    let numLines := lines.length
    if insertLine < 0 ∨ (numLines : Int) < insertLine then
      (st, some (.invalidInsertLine insertLine numLines))
    else
      let newLines := lines.take insertLine.toNat ++ splitNl new ++ lines.drop insertLine.toNat
      (pushHist (writeFile st p (joinNl newLines)) p fileText, none)

/-- OHEditor.undo_edit (editor.py lines 531 to 548): fail when the
history stack of the path is empty, else pop the most recent snapshot and
write it back. -/
def undoMethod (st : EditorState) (p : Nat) : EditorState × Option ToolErr :=
  match st.history p with
  | [] => (st, some (.noHistory p))
  | snap :: rest =>
    (EditorState.mk (fun q => if q = p then some snap else st.files q)
      (fun q => if q = p then rest else st.history q), none)

/-- A command together with its parameters, as dispatched by
OHEditor.__call__.  The view command and the missing-required-parameter
errors are not modelled: they do not touch the state the claims are
about. -/
inductive Cmd where
  | create (fileText : Str)
  | strReplace (oldStr : Str) (newStr : Option Str) (prm : ReplaceParams)
  | insert (insertLine : Int) (newStr : Str)
  | undoEdit
deriving DecidableEq

/-- OHEditor.__call__ (editor.py lines 49 to 98): validate the path
(create requires a fresh path, every other command an existing one),
check the equal-strings guard of str_replace, and dispatch.  create
writes file_text and appends that same file_text to the history. -/
def callCmd (st : EditorState) (p : Nat) : Cmd → EditorState × Option ToolErr
  | .create text =>
    match st.files p with
    | some _ => (st, some (.pathExists p))
    | none => (pushHist (writeFile st p text) p text, none)
  | .strReplace oldStr newStr prm =>
    match st.files p with
    | none => (st, some (.pathNotFound p))
    | some _ =>
      if newStr = some oldStr then (st, some .noopReplace)
      else strReplaceMethod st p oldStr newStr prm
  | .insert line text =>
    match st.files p with
    | none => (st, some (.pathNotFound p))
    | some _ => insertMethod st p line text
  | .undoEdit =>
    match st.files p with
    | none => (st, some (.pathNotFound p))
    | some _ => undoMethod st p

/-- All indices in the list are within the 1-indexed line range. -/
def boundsOk (l : List Int) (n : Nat) : Prop := ∀ i, i ∈ l → 1 ≤ i ∧ i ≤ (n : Int)

/-- A supplied range has both endpoints within the 1-indexed line range
and is ordered. -/
def rangeOk (r : Option (Int × Int)) (n : Nat) : Prop :=
  match r with
  | none => True
  | some (s, e) => 1 ≤ s ∧ s ≤ (n : Int) ∧ 1 ≤ e ∧ e ≤ (n : Int) ∧ s ≤ e

/-- All supplied selector parameters of a str_replace call are in
bounds. -/
def paramsOk (prm : ReplaceParams) (n : Nat) : Prop :=
  boundsOk prm.lineNumbers n ∧ rangeOk prm.lineRange n ∧
    boundsOk prm.deleteLines n ∧ rangeOk prm.deleteRange n

/-- The bound b was supplied in one of the four selector parameters. -/
def suppliedIdx (prm : ReplaceParams) (b : Int) : Prop :=
  b ∈ prm.lineNumbers ∨
    (∃ s e, prm.lineRange = some (s, e) ∧ (b = s ∨ b = e)) ∨
    b ∈ prm.deleteLines ∨
    (∃ s e, prm.deleteRange = some (s, e) ∧ (b = s ∨ b = e))

/-- Some selector parameter other than the default FirstOccurrence is
active: a truthy line_numbers, line_range, delete_lines or delete_range,
or line_all set. -/
def selectorActive (prm : ReplaceParams) : Prop :=
  prm.lineNumbers ≠ [] ∨ prm.lineRange ≠ none ∨ prm.lineAll = true ∨
    prm.deleteLines ≠ [] ∨ prm.deleteRange ≠ none

/-- Whether old occurs as a contiguous substring of s, phrased through
the suffix at which it starts. -/
def occursIn (old s : Str) : Prop :=
  ∃ d, old.isPrefixOf (s.drop d) = true

theorem isPrefixOf_iff_ex (sub s : Str) : sub.isPrefixOf s = true ↔ ∃ t, s = sub ++ t := by
  induction sub generalizing s with
  | nil =>
    simp [List.isPrefixOf]
  | cons a as ih =>
    cases s with
    | nil =>
      simp [List.isPrefixOf]
    | cons b bs =>
      simp only [List.isPrefixOf, Bool.and_eq_true, beq_iff_eq, List.cons_append,
        List.cons.injEq, ih]
      constructor
      · rintro ⟨hab, t, ht⟩
        exact ⟨t, hab.symm, ht⟩
      · rintro ⟨t, hab, ht⟩
        exact ⟨hab.symm, t, ht⟩

theorem isPrefixOf_append_right (sub l l2 : Str) (h : sub.isPrefixOf l = true) :
    sub.isPrefixOf (l ++ l2) = true := by
  rw [isPrefixOf_iff_ex] at h ⊢
  obtain ⟨t, ht⟩ := h
  exact ⟨t ++ l2, by simp [ht]⟩

theorem mem_of_isPrefixOf (sub s : Str) (c : Char) (h : sub.isPrefixOf s = true)
    (hc : c ∈ sub) : c ∈ s := by
  rw [isPrefixOf_iff_ex] at h
  obtain ⟨t, ht⟩ := h
  subst ht
  exact List.mem_append_left t hc

theorem isPrefixOf_nil_iff (sub : Str) : sub.isPrefixOf ([] : Str) = true ↔ sub = [] := by
  rw [isPrefixOf_iff_ex]
  simp

theorem countGo_skip (sub : Str) : ∀ (s : Str) (k : Nat),
    countGo sub s k = countGo sub (s.drop k) 0 := by
  intro s
  induction s with
  | nil => intro k; simp [countGo]
  | cons c t ih =>
    intro k
    cases k with
    | zero => rfl
    | succ k2 => simpa [countGo] using ih k2

theorem replGo_skip (sub new : Str) : ∀ (s : Str) (k : Nat),
    replGo sub new s k = replGo sub new (s.drop k) 0 := by
  intro s
  induction s with
  | nil => intro k; simp [replGo]
  | cons c t ih =>
    intro k
    cases k with
    | zero => rfl
    | succ k2 => simpa [replGo] using ih k2

theorem countGo_zero_iff (sub : Str) (hsub : sub ≠ []) : ∀ s : Str,
    countGo sub s 0 = 0 ↔ ∀ d, sub.isPrefixOf (s.drop d) = false := by
  intro s
  induction s with
  | nil =>
    simp only [countGo, List.drop_nil, true_iff]
    intro d
    cases h : sub.isPrefixOf ([] : Str)
    · rfl
    · exact absurd ((isPrefixOf_nil_iff sub).mp h) hsub
  | cons c t ih =>
    by_cases hp : sub.isPrefixOf (c :: t) = true
    · simp only [countGo, hp, if_true]
      constructor
      · omega
      · intro hall
        have := hall 0
        simp [hp] at this
    · have hp2 : sub.isPrefixOf (c :: t) = false := Bool.eq_false_iff.mpr hp
      simp only [countGo, hp2, Bool.false_eq_true, if_false]
      rw [ih]
      constructor
      · intro hall d
        cases d with
        | zero => simpa using (Bool.eq_false_iff.mpr hp)
        | succ d2 => simpa using hall d2
      · intro hall d
        simpa using hall (d + 1)

theorem replGo_id (sub new : Str) : ∀ s : Str,
    (∀ d, sub.isPrefixOf (s.drop d) = false) → replGo sub new s 0 = s := by
  intro s
  induction s with
  | nil => intro _; rfl
  | cons c t ih =>
    intro hall
    have h0 : sub.isPrefixOf (c :: t) = false := by simpa using hall 0
    simp only [replGo, h0, Bool.false_eq_true, if_false]
    rw [ih]
    · intro d
      simpa using hall (d + 1)

theorem countGo_one_splice (sub new : Str) (hsub : sub ≠ []) : ∀ s : Str,
    countGo sub s 0 = 1 →
    ∃ i, sub.isPrefixOf (s.drop i) = true ∧
      (∀ j, j < i → sub.isPrefixOf (s.drop j) = false) ∧
      replGo sub new s 0 = s.take i ++ new ++ s.drop (i + sub.length) := by
  intro s
  induction s with
  | nil => intro h; simp [countGo] at h
  | cons c t ih =>
    intro h1
    by_cases hp : sub.isPrefixOf (c :: t) = true
    · refine ⟨0, hp, by omega, ?_⟩
      simp only [countGo, hp, if_true] at h1
      have hz : countGo sub t (sub.length - 1) = 0 := by omega
      rw [countGo_skip] at hz
      have hno := (countGo_zero_iff sub hsub (t.drop (sub.length - 1))).mp hz
      simp only [replGo, hp, if_true]
      rw [replGo_skip, replGo_id sub new _ hno]
      have hlen : 1 ≤ sub.length := by
        cases sub
        · exact absurd rfl hsub
        · simp
      simp only [List.take_zero, List.nil_append]
      congr 1
      rw [show 0 + sub.length = (sub.length - 1) + 1 by omega]
      simp [List.drop_succ_cons]
    · simp only [countGo, hp, Bool.false_eq_true, if_false] at h1
      obtain ⟨i, hi1, hi2, hi3⟩ := ih h1
      refine ⟨i + 1, by simpa using hi1, ?_, ?_⟩
      · intro j hj
        cases j with
        | zero => simpa using (Bool.eq_false_iff.mpr hp)
        | succ j2 => simpa using hi2 j2 (by omega)
      · simp only [replGo, hp, Bool.false_eq_true, if_false]
        rw [hi3]
        simp only [List.take_succ_cons, List.cons_append]
        congr 2
        have : i + 1 + sub.length = (i + sub.length) + 1 := by omega
        rw [this]
        simp

theorem pyCount_zero_iff (s sub : Str) (hsub : sub ≠ []) :
    pyCount s sub = 0 ↔ ¬occursIn sub s := by
  unfold pyCount
  have : sub.isEmpty = false := by
    cases sub
    · exact absurd rfl hsub
    · rfl
  rw [this]
  simp only [Bool.false_eq_true, if_false]
  rw [countGo_zero_iff sub hsub s]
  unfold occursIn
  constructor
  · intro hall ⟨d, hd⟩
    rw [hall d] at hd
    cases hd
  · intro hno d
    cases h : sub.isPrefixOf (s.drop d)
    · rfl
    · exact absurd ⟨d, h⟩ hno

theorem pyReplace_id_of_not_occurs (s sub new : Str) (hsub : sub ≠ [])
    (h : ¬occursIn sub s) : pyReplace s sub new = s := by
  unfold pyReplace
  have he : sub.isEmpty = false := by
    cases sub
    · exact absurd rfl hsub
    · rfl
  rw [he]
  simp only [Bool.false_eq_true, if_false]
  apply replGo_id
  intro d
  cases hp : sub.isPrefixOf (s.drop d)
  · rfl
  · exact absurd ⟨d, hp⟩ h

theorem findGo_some (sub : Str) : ∀ (s : Str) (i j : Nat), findGo sub s i = some j →
    i ≤ j ∧ j ≤ i + s.length ∧ sub.isPrefixOf (s.drop (j - i)) = true ∧
      ∀ d, d < j - i → sub.isPrefixOf (s.drop d) = false := by
  intro s
  induction s with
  | nil =>
    intro i j hj
    simp only [findGo] at hj
    split at hj
    · rename_i hp
      cases hj
      refine ⟨le_refl i, by simp, ?_, by omega⟩
      simpa using hp
    · cases hj
  | cons c t ih =>
    intro i j hj
    simp only [findGo] at hj
    split at hj
    · rename_i hp
      cases hj
      refine ⟨le_refl i, by simp, by simpa using hp, by omega⟩
    · rename_i hp
      obtain ⟨h1, h2, h3, h4⟩ := ih (i + 1) j hj
      refine ⟨by omega, by simp only [List.length_cons]; omega, ?_, ?_⟩
      · have : j - i = (j - (i + 1)) + 1 := by omega
        rw [this]
        simpa using h3
      · intro d hd
        cases d with
        | zero => simpa using (Bool.eq_false_iff.mpr hp)
        | succ d2 =>
          have : d2 < j - (i + 1) := by omega
          simpa using h4 d2 this

theorem findGo_none (sub : Str) : ∀ (s : Str) (i : Nat), findGo sub s i = none →
    ∀ d, sub.isPrefixOf (s.drop d) = false := by
  intro s
  induction s with
  | nil =>
    intro i hj d
    simp only [findGo] at hj
    split at hj
    · cases hj
    · rename_i hp
      simpa using (Bool.eq_false_iff.mpr hp)
  | cons c t ih =>
    intro i hj d
    simp only [findGo] at hj
    split at hj
    · cases hj
    · rename_i hp
      cases d with
      | zero => simpa using (Bool.eq_false_iff.mpr hp)
      | succ d2 => simpa using ih (i + 1) hj d2

theorem pyFind_some (s sub : Str) (start j : Nat) (h : pyFind s sub start = some j) :
    start ≤ j ∧ j ≤ s.length ∧ sub.isPrefixOf (s.drop j) = true ∧
      ∀ k, start ≤ k → k < j → sub.isPrefixOf (s.drop k) = false := by
  unfold pyFind at h
  split at h
  · rename_i hs
    obtain ⟨h1, h2, h3, h4⟩ := findGo_some sub (s.drop start) start j h
    simp only [List.length_drop] at h2
    rw [List.drop_drop] at h3
    refine ⟨h1, by omega, ?_, ?_⟩
    · rw [show start + (j - start) = j by omega] at h3
      exact h3
    · intro k hk1 hk2
      have := h4 (k - start) (by omega)
      rw [List.drop_drop, show start + (k - start) = k by omega] at this
      exact this
  · cases h

theorem pyFind_none (s sub : Str) (start : Nat) (h : pyFind s sub start = none) :
    ∀ k, start ≤ k → k ≤ s.length → sub.isPrefixOf (s.drop k) = false := by
  unfold pyFind at h
  split at h
  · rename_i hs
    intro k hk1 hk2
    have := findGo_none sub (s.drop start) start h (k - start)
    rw [List.drop_drop, show start + (k - start) = k by omega] at this
    exact this
  · rename_i hs
    intro k hk1 hk2
    omega

theorem occStartsGo_eq (content old : Str) : ∀ start,
    occStartsGo content old start =
      (List.range' start (content.length + 1 - start)).filter
        (fun i => old.isPrefixOf (content.drop i)) := by
  have main : ∀ fuel start, content.length + 1 - start ≤ fuel →
      occStartsGo content old start =
        (List.range' start (content.length + 1 - start)).filter
          (fun i => old.isPrefixOf (content.drop i)) := by
    intro fuel
    induction fuel with
    | zero =>
      intro start hle
      have hz : content.length + 1 - start = 0 := by omega
      rw [hz]
      rw [occStartsGo]
      have hfind : pyFind content old start = none := by
        unfold pyFind
        split
        · omega
        · rfl
      rw [hfind]
      rfl
    | succ f ih =>
      intro start hle
      rw [occStartsGo]
      cases hfind : pyFind content old start with
      | none =>
        have hall := pyFind_none content old start hfind
        symm
        rw [List.filter_eq_nil_iff]
        intro a ha
        rw [List.mem_range'_1] at ha
        have := hall a ha.1 (by omega)
        simp [this]
      | some j =>
        obtain ⟨h1, h2, h3, h4⟩ := pyFind_some content old start j hfind
        have hsplit : content.length + 1 - start =
            (content.length + 1 - j) + (j - start) := by omega
        rw [hsplit, ← List.range'_append_1]
        rw [List.filter_append]
        have hfirst : (List.range' start (j - start)).filter
            (fun i => old.isPrefixOf (content.drop i)) = [] := by
          rw [List.filter_eq_nil_iff]
          intro a ha
          rw [List.mem_range'_1] at ha
          have := h4 a ha.1 (by omega)
          simp [this]
        rw [hfirst, List.nil_append]
        rw [show start + (j - start) = j by omega]
        rw [show content.length + 1 - j = (content.length - j) + 1 by omega]
        rw [List.range'_succ]
        rw [List.filter_cons_of_pos (by simpa using h3)]
        change j :: occStartsGo content old (j + 1) = _
        rw [ih (j + 1) (by omega)]
        rw [show content.length + 1 - (j + 1) = content.length - j by omega]
  intro start
  exact main (content.length + 1 - start) start (le_refl _)

theorem occStarts_eq_filter_range (content old : Str) :
    occStartsGo content old 0 =
      (List.range (content.length + 1)).filter (fun i => old.isPrefixOf (content.drop i)) := by
  rw [occStartsGo_eq content old 0, List.range_eq_range']
  rfl

theorem splitNl_ne_nil (s : Str) : splitNl s ≠ [] := by
  cases s with
  | nil => simp [splitNl]
  | cons c t =>
    simp only [splitNl]
    split
    · simp
    · split
      · simp
      · simp

theorem joinNl_cons_cons (l y : Str) (r : List Str) :
    joinNl (l :: y :: r) = l ++ '\n' :: joinNl (y :: r) := rfl

theorem joinNl_splitNl (s : Str) : joinNl (splitNl s) = s := by
  induction s with
  | nil => rfl
  | cons c t ih =>
    simp only [splitNl]
    by_cases hc : c = '\n'
    · simp only [hc, if_true]
      obtain ⟨h, r, hr⟩ : ∃ h r, splitNl t = h :: r := by
        cases hsp : splitNl t with
        | nil => exact absurd hsp (splitNl_ne_nil t)
        | cons h r => exact ⟨h, r, rfl⟩
      rw [hr]
      rw [joinNl_cons_cons]
      rw [← hr, ih]
      simp
    · simp only [hc, if_false]
      obtain ⟨h, r, hr⟩ : ∃ h r, splitNl t = h :: r := by
        cases hsp : splitNl t with
        | nil => exact absurd hsp (splitNl_ne_nil t)
        | cons h r => exact ⟨h, r, rfl⟩
      rw [hr]
      cases r with
      | nil =>
        show c :: h = c :: t
        rw [hr] at ih
        simpa using ih
      | cons y r2 =>
        rw [joinNl_cons_cons]
        show c :: (h ++ '\n' :: joinNl (y :: r2)) = c :: t
        rw [hr] at ih
        rw [joinNl_cons_cons] at ih
        simpa using ih

theorem splitNl_cases (s : Str) : ∀ h r, splitNl s = h :: r →
    (r = [] ∧ s = h) ∨ ∃ t2, s = h ++ '\n' :: t2 ∧ splitNl t2 = r := by
  induction s with
  | nil =>
    intro h r hs
    simp only [splitNl, List.cons.injEq] at hs
    exact Or.inl ⟨hs.2.symm, hs.1⟩
  | cons c t ih =>
    intro h r hs
    simp only [splitNl] at hs
    by_cases hc : c = '\n'
    · rw [if_pos hc] at hs
      injection hs with hh hr
      subst hh
      subst hr
      exact Or.inr ⟨t, by simp [hc], rfl⟩
    · rw [if_neg hc] at hs
      obtain ⟨h2, r2, hr2⟩ : ∃ h2 r2, splitNl t = h2 :: r2 := by
        cases hsp : splitNl t with
        | nil => exact absurd hsp (splitNl_ne_nil t)
        | cons a b => exact ⟨a, b, rfl⟩
      rw [hr2] at hs
      injection hs with hh hr
      subst hh
      subst hr
      rcases ih h2 r2 hr2 with ⟨hre, hte⟩ | ⟨t2, ht2, hsp2⟩
      · exact Or.inl ⟨hre, by rw [hte]⟩
      · exact Or.inr ⟨t2, by rw [ht2]; simp, hsp2⟩

theorem occursIn_append_left (sub l l2 : Str) (h : occursIn sub l) :
    occursIn sub (l ++ l2) := by
  obtain ⟨d, hd⟩ := h
  by_cases hdl : d ≤ l.length
  · refine ⟨d, ?_⟩
    rw [List.drop_append_eq_append_drop]
    rw [show d - l.length = 0 by omega]
    simp only [List.drop_zero]
    exact isPrefixOf_append_right sub (l.drop d) l2 hd
  · have : l.drop d = [] := by
      apply List.drop_eq_nil_of_le
      omega
    rw [this] at hd
    have hsub : sub = [] := (isPrefixOf_nil_iff sub).mp hd
    subst hsub
    exact ⟨0, by simp [List.isPrefixOf]⟩

theorem occursIn_append_right (sub l t2 : Str) (h : occursIn sub t2) :
    occursIn sub (l ++ '\n' :: t2) := by
  obtain ⟨d, hd⟩ := h
  refine ⟨l.length + 1 + d, ?_⟩
  rw [List.drop_append_eq_append_drop]
  rw [List.drop_eq_nil_of_le (by omega)]
  rw [show l.length + 1 + d - l.length = d + 1 by omega]
  simpa using hd

theorem occursIn_of_mem_splitNl (sub : Str) : ∀ (s : Str) (l : Str),
    l ∈ splitNl s → occursIn sub l → occursIn sub s := by
  have main : ∀ (n : Nat) (s : Str), s.length ≤ n → ∀ l : Str,
      l ∈ splitNl s → occursIn sub l → occursIn sub s := by
    intro n
    induction n with
    | zero =>
      intro s hs l hl ho
      have : s = [] := by
        cases s
        · rfl
        · simp at hs
      subst this
      simp only [splitNl, List.mem_singleton] at hl
      subst hl
      exact ho
    | succ n ih =>
      intro s hs l hl ho
      obtain ⟨h, r, hr⟩ : ∃ h r, splitNl s = h :: r := by
        cases hsp : splitNl s with
        | nil => exact absurd hsp (splitNl_ne_nil s)
        | cons a b => exact ⟨a, b, rfl⟩
      rw [hr] at hl
      rcases splitNl_cases s h r hr with ⟨hre, hse⟩ | ⟨t2, ht2, hsp2⟩
      · subst hre
        simp only [List.mem_singleton] at hl
        subst hl
        rw [hse]
        exact ho
      · rcases List.mem_cons.mp hl with hlh | hlr
        · subst hlh
          rw [ht2]
          exact occursIn_append_left sub l ('\n' :: t2) ho
        · have ht2len : t2.length ≤ n := by
            have : s.length = h.length + 1 + t2.length := by
              rw [ht2]; simp; omega
            omega
          have := ih t2 ht2len l (by rw [hsp2]; exact hlr) ho
          rw [ht2]
          exact occursIn_append_right sub h t2 this
  intro s l hl ho
  exact main s.length s (le_refl _) l hl ho

theorem expandtabsGo_eq_self (s : Str) (hnt : ¬ '\t' ∈ s) : ∀ col, expandtabsGo col s = s := by
  induction s with
  | nil => intro col; rfl
  | cons c t ih =>
    intro col
    have hc : c ≠ '\t' := by
      intro hce
      exact hnt (by rw [hce]; exact List.mem_cons_self _ _)
    have hnt2 : ¬ '\t' ∈ t := fun hm => hnt (List.mem_cons_of_mem c hm)
    simp only [expandtabsGo, hc, if_false]
    split
    · rw [ih hnt2]
    · rw [ih hnt2]

theorem expandtabs_eq_self (s : Str) (hnt : ¬ '\t' ∈ s) : expandtabs s = s :=
  expandtabsGo_eq_self s hnt 0

theorem expandtabs_mem_nl (s : Str) : '\n' ∈ expandtabs s ↔ '\n' ∈ s := by
  have main : ∀ (s2 : Str) (col : Nat), '\n' ∈ expandtabsGo col s2 ↔ '\n' ∈ s2 := by
    intro s2
    induction s2 with
    | nil => intro col; simp [expandtabsGo]
    | cons c t ih =>
      intro col
      by_cases hc : c = '\t'
      · simp only [expandtabsGo, hc, if_true, List.mem_append, List.mem_cons, ih]
        constructor
        · rintro (hsp | hm)
          · have := List.eq_of_mem_replicate hsp
            cases this
          · exact Or.inr hm
        · rintro (hnc | hm)
          · cases hnc
          · exact Or.inr hm
      · simp only [expandtabsGo, hc, if_false]
        split
        · simp [ih]
        · simp [ih]
  exact main s 0

theorem splitlinesGo_ne_nil (s : Str) (hs : s ≠ []) : splitlinesGo s ≠ [] := by
  cases s with
  | nil => exact absurd rfl hs
  | cons c t =>
    rw [splitlinesGo]
    split
    · simp
    · split
      · simp
      · simp

theorem splitlinesGo_no_boundary : ∀ (s : Str) (l : Str), l ∈ splitlinesGo s →
    ∀ c, c ∈ l → lineBoundary c = false := by
  have main : ∀ (n : Nat) (s : Str), s.length ≤ n → ∀ l, l ∈ splitlinesGo s →
      ∀ c, c ∈ l → lineBoundary c = false := by
    intro n
    induction n with
    | zero =>
      intro s hs l hl c hc
      have : s = [] := by
        cases s
        · rfl
        · simp at hs
      subst this
      simp [splitlinesGo] at hl
    | succ n ih =>
      intro s hs l hl c hc
      cases s with
      | nil => simp [splitlinesGo] at hl
      | cons a t =>
        rw [splitlinesGo] at hl
        by_cases hb : lineBoundary a
        · rw [if_pos hb] at hl
          rcases List.mem_cons.mp hl with hle | hlr
          · subst hle
            simp at hc
          · have hlen : (if a = '\r' then dropLf t else t).length ≤ n := by
              have hd : (dropLf t).length ≤ t.length := by
                cases t with
                | nil => simp [dropLf]
                | cons c2 t2 =>
                  simp only [dropLf]
                  split
                  · simp
                  · simp
              split
              · simp_all
                omega
              · simp_all
            exact ih _ hlen l hlr c hc
        · rw [if_neg hb] at hl
          have htlen : t.length ≤ n := by simp at hs; omega
          cases hsp : splitlinesGo t with
          | nil =>
            rw [hsp] at hl
            simp only [List.mem_singleton] at hl
            subst hl
            simp only [List.mem_singleton] at hc
            subst hc
            exact Bool.eq_false_iff.mpr hb
          | cons l2 r2 =>
            rw [hsp] at hl
            rcases List.mem_cons.mp hl with hle | hlr
            · subst hle
              rcases List.mem_cons.mp hc with hce | hcm
              · subst hce
                exact Bool.eq_false_iff.mpr hb
              · exact ih t htlen l2 (by rw [hsp]; exact List.mem_cons_self _ _) c hcm
            · exact ih t htlen l (by rw [hsp]; exact List.mem_cons_of_mem l2 hlr) c hc
  intro s l hl c hc
  exact main s.length s (le_refl _) l hl c hc

theorem pyReplace_id_of_boundary_free (l old new : Str) (hnl : '\n' ∈ old)
    (hbf : ∀ c, c ∈ l → lineBoundary c = false) : pyReplace l old new = l := by
  have hne : old ≠ [] := by
    intro he
    rw [he] at hnl
    cases hnl
  apply pyReplace_id_of_not_occurs l old new hne
  rintro ⟨d, hd⟩
  have : '\n' ∈ l.drop d := mem_of_isPrefixOf old (l.drop d) '\n' hd hnl
  have hmem : '\n' ∈ l := List.mem_of_mem_drop this
  have := hbf '\n' hmem
  simp [lineBoundary] at this

theorem getLast?_cons_ne (a : Char) (t : Str) (ht : t ≠ []) :
    (a :: t).getLast? = t.getLast? := by
  cases t with
  | nil => exact absurd rfl ht
  | cons b t2 => exact List.getLast?_cons_cons

theorem joinNl_splitlinesGo (s : Str)
    (honly : ∀ c, c ∈ s → lineBoundary c = true → c = '\n')
    (hlast : s.getLast? ≠ some '\n') : joinNl (splitlinesGo s) = s := by
  have main : ∀ (n : Nat) (s2 : Str), s2.length ≤ n →
      (∀ c, c ∈ s2 → lineBoundary c = true → c = '\n') →
      s2.getLast? ≠ some '\n' → joinNl (splitlinesGo s2) = s2 := by
    intro n
    induction n with
    | zero =>
      intro s2 hs2 _ _
      have : s2 = [] := by
        cases s2
        · rfl
        · simp at hs2
      subst this
      simp [splitlinesGo, joinNl]
    | succ n ih =>
      intro s2 hs2 honly2 hlast2
      cases s2 with
      | nil => simp [splitlinesGo, joinNl]
      | cons a t =>
        rw [splitlinesGo]
        by_cases hb : lineBoundary a
        · have ha : a = '\n' := honly2 a (List.mem_cons_self _ _) hb
          have htne : t ≠ [] := by
            intro hte
            subst hte
            rw [ha] at hlast2
            simp at hlast2
          rw [if_pos hb]
          rw [ha]
          simp only [if_neg (by decide : ¬('\n' : Char) = '\r')]
          obtain ⟨l2, r2, hsp⟩ : ∃ l2 r2, splitlinesGo t = l2 :: r2 := by
            cases hspt : splitlinesGo t with
            | nil => exact absurd hspt (splitlinesGo_ne_nil t htne)
            | cons a2 b2 => exact ⟨a2, b2, rfl⟩
          rw [hsp, joinNl_cons_cons, ← hsp]
          rw [ih t (by simp at hs2; omega)
            (fun c hc hbc => honly2 c (List.mem_cons_of_mem a hc) hbc)
            (by rwa [getLast?_cons_ne a t htne] at hlast2)]
          simp
        · rw [if_neg hb]
          cases htnil : t with
          | nil =>
            subst htnil
            simp [splitlinesGo, joinNl]
          | cons b t2 =>
            have htne : t ≠ [] := by rw [htnil]; simp
            rw [← htnil]
            obtain ⟨l2, r2, hsp⟩ : ∃ l2 r2, splitlinesGo t = l2 :: r2 := by
              cases hspt : splitlinesGo t with
              | nil => exact absurd hspt (splitlinesGo_ne_nil t htne)
              | cons a2 b2 => exact ⟨a2, b2, rfl⟩
            rw [hsp]
            have hih : joinNl (splitlinesGo t) = t := by
              apply ih t (by simp at hs2; omega)
                (fun c hc hbc => honly2 c (List.mem_cons_of_mem a hc) hbc)
              rwa [getLast?_cons_ne a t htne] at hlast2
            cases r2 with
            | nil =>
              show (a :: l2 : Str) = a :: t
              rw [hsp] at hih
              simpa using hih
            | cons y rr =>
              rw [joinNl_cons_cons]
              show a :: (l2 ++ '\n' :: joinNl (y :: rr)) = a :: t
              rw [hsp, joinNl_cons_cons] at hih
              simpa using hih
  exact main s.length s (le_refl _) honly hlast

theorem reFindFirst_some (dotAll : Bool) (pat : List RTok) : ∀ (s : Str) (j : Nat),
    reFindFirst dotAll pat s = some j →
      matchesAt dotAll pat (s.drop j) = true ∧
      ∀ k, k < j → matchesAt dotAll pat (s.drop k) = false := by
  intro s
  induction s with
  | nil =>
    intro j hj
    simp only [reFindFirst] at hj
    split at hj
    · rename_i hm
      cases hj
      exact ⟨by simpa using hm, by omega⟩
    · cases hj
  | cons c t ih =>
    intro j hj
    simp only [reFindFirst] at hj
    split at hj
    · rename_i hm
      cases hj
      exact ⟨by simpa using hm, by omega⟩
    · rename_i hm
      cases hsub : reFindFirst dotAll pat t with
      | none => rw [hsub] at hj; cases hj
      | some j2 =>
        rw [hsub] at hj
        simp only [Option.map_some'] at hj
        cases hj
        obtain ⟨h1, h2⟩ := ih j2 hsub
        refine ⟨by simpa using h1, ?_⟩
        intro k hk
        cases k with
        | zero => simpa using (Bool.eq_false_iff.mpr hm)
        | succ k2 => simpa using h2 k2 (by omega)

theorem reFindFirst_none (dotAll : Bool) (pat : List RTok) : ∀ s : Str,
    reFindFirst dotAll pat s = none →
      ∀ k, matchesAt dotAll pat (s.drop k) = false := by
  intro s
  induction s with
  | nil =>
    intro hn k
    simp only [reFindFirst] at hn
    split at hn
    · cases hn
    · rename_i hm
      simpa using (Bool.eq_false_iff.mpr hm)
  | cons c t ih =>
    intro hn k
    simp only [reFindFirst] at hn
    split at hn
    · cases hn
    · rename_i hm
      cases hsub : reFindFirst dotAll pat t with
      | none =>
        cases k with
        | zero => simpa using (Bool.eq_false_iff.mpr hm)
        | succ k2 => simpa using ih hsub k2
      | some j2 => rw [hsub] at hn; cases hn

theorem reSubFirst_spec (dotAll : Bool) (pat : List RTok) (new : Str) : ∀ s : Str,
    reSubFirst dotAll pat new s =
      match reFindFirst dotAll pat s with
      | none => s
      | some j => s.take j ++ new ++ s.drop (j + pat.length) := by
  intro s
  induction s with
  | nil =>
    simp only [reSubFirst, reFindFirst]
    split
    · simp
    · rfl
  | cons c t ih =>
    simp only [reSubFirst, reFindFirst]
    split
    · simp
    · rename_i hm
      rw [ih]
      cases hsub : reFindFirst dotAll pat t with
      | none => rfl
      | some j2 =>
        simp only [Option.map_some']
        show c :: (t.take j2 ++ new ++ t.drop (j2 + pat.length)) = _
        simp only [List.take_succ_cons, List.cons_append]
        congr 2
        rw [show j2 + 1 + pat.length = (j2 + pat.length) + 1 by omega]
        simp

theorem set_getD_self {α : Type} (d : α) : ∀ (l : List α) (n : Nat), n < l.length →
    l.set n (l.getD n d) = l := by
  intro l
  induction l with
  | nil => intro n hn; simp at hn
  | cons a t ih =>
    intro n hn
    cases n with
    | zero => simp
    | succ n2 =>
      simp only [List.getD_cons_succ, List.set_cons_succ, List.cons.injEq, true_and]
      exact ih n2 (by simpa using hn)

theorem getD_mem {α : Type} (d : α) : ∀ (l : List α) (n : Nat), n < l.length →
    l.getD n d ∈ l := by
  intro l
  induction l with
  | nil => intro n hn; simp at hn
  | cons a t ih =>
    intro n hn
    cases n with
    | zero => simp
    | succ n2 =>
      simp only [List.getD_cons_succ]
      exact List.mem_cons_of_mem a (ih n2 (by simpa using hn))

theorem applyLines_id (lines : List Str) (idxs : List Int) (f : Str → Str)
    (hf : ∀ l, l ∈ lines → f l = l) : applyLines lines idxs f = lines := by
  unfold applyLines
  induction idxs with
  | nil => rfl
  | cons i it ih =>
    simp only [List.foldl_cons]
    have hstep :
        (if i < (lines.length : Int) then
          lines.set i.toNat (f (lines.getD i.toNat [])) else lines) = lines := by
      split
      · rename_i hi
        cases hlines : lines with
        | nil => rfl
        | cons a rest =>
          rw [← hlines]
          have hpos : 0 < lines.length := by rw [hlines]; simp
          have hlt : i.toNat < lines.length := by omega
          rw [hf (lines.getD i.toNat []) (getD_mem [] lines i.toNat hlt)]
          exact set_getD_self [] lines i.toNat hlt
      · rfl
    rw [hstep]
    exact ih

theorem listMin_le_init (xs : List Int) : ∀ x : Int, listMin x xs ≤ x := by
  induction xs with
  | nil => intro x; exact le_refl x
  | cons y ys ih =>
    intro x
    calc listMin (min x y) ys ≤ min x y := ih (min x y)
    _ ≤ x := min_le_left x y

theorem listMin_le (xs : List Int) : ∀ (x y : Int), y ∈ x :: xs → listMin x xs ≤ y := by
  induction xs with
  | nil =>
    intro x y hy
    simp only [List.mem_singleton] at hy
    subst hy
    exact le_refl y
  | cons z zs ih =>
    intro x y hy
    rcases List.mem_cons.mp hy with h1 | h2
    · subst h1
      exact listMin_le_init (z :: zs) y
    · rcases List.mem_cons.mp h2 with h3 | h4
      · subst h3
        calc listMin (min x y) zs ≤ min x y := listMin_le_init zs _
        _ ≤ y := min_le_right x y
      · exact ih (min x z) y (List.mem_cons_of_mem _ h4)

theorem listMin_mem (xs : List Int) : ∀ x : Int, listMin x xs ∈ x :: xs := by
  induction xs with
  | nil => intro x; simp [listMin]
  | cons y ys ih =>
    intro x
    simp only [listMin]
    have := ih (min x y)
    rcases List.mem_cons.mp this with h1 | h2
    · rcases min_cases x y with ⟨he, _⟩ | ⟨he, _⟩
      · rw [h1, he]
        simp
      · rw [h1, he]
        simp
    · exact List.mem_cons_of_mem x (List.mem_cons_of_mem y h2)

theorem le_listMax_init (xs : List Int) : ∀ x : Int, x ≤ listMax x xs := by
  induction xs with
  | nil => intro x; exact le_refl x
  | cons y ys ih =>
    intro x
    calc x ≤ max x y := le_max_left x y
    _ ≤ listMax (max x y) ys := ih (max x y)

theorem le_listMax (xs : List Int) : ∀ (x y : Int), y ∈ x :: xs → y ≤ listMax x xs := by
  induction xs with
  | nil =>
    intro x y hy
    simp only [List.mem_singleton] at hy
    subst hy
    exact le_refl y
  | cons z zs ih =>
    intro x y hy
    rcases List.mem_cons.mp hy with h1 | h2
    · subst h1
      exact le_listMax_init (z :: zs) y
    · rcases List.mem_cons.mp h2 with h3 | h4
      · subst h3
        calc y ≤ max x y := le_max_right x y
        _ ≤ listMax (max x y) zs := le_listMax_init zs _
      · exact ih (max x z) y (List.mem_cons_of_mem _ h4)

theorem listMax_mem (xs : List Int) : ∀ x : Int, listMax x xs ∈ x :: xs := by
  induction xs with
  | nil => intro x; simp [listMax]
  | cons y ys ih =>
    intro x
    simp only [listMax]
    have := ih (max x y)
    rcases List.mem_cons.mp this with h1 | h2
    · rcases max_cases x y with ⟨he, _⟩ | ⟨he, _⟩
      · rw [h1, he]
        simp
      · rw [h1, he]
        simp
    · exact List.mem_cons_of_mem x (List.mem_cons_of_mem y h2)

theorem checkList_none_iff (kind : BoundKind) (l : List Int) (n : Nat) :
    checkList kind l n = none ↔ boundsOk l n := by
  cases l with
  | nil =>
    simp only [checkList, boundsOk]
    constructor
    · intro _ i hi
      exact absurd hi (List.not_mem_nil i)
    · intro _
      trivial
  | cons x xs =>
    simp only [checkList, validateMinOrMax, boundsOk]
    constructor
    · intro h i hi
      split at h
      · cases h
      · split at h
        · cases h
        · rename_i h1 h2
          constructor
          · have := listMin_le xs x i hi
            omega
          · have := le_listMax xs x i hi
            omega
    · intro hall
      have hmin := hall (listMin x xs) (listMin_mem xs x)
      have hmax := hall (listMax x xs) (listMax_mem xs x)
      rw [if_neg (by omega), if_neg (by omega)]

theorem checkList_some_spec (kind : BoundKind) (l : List Int) (n : Nat) (e : ToolErr)
    (h : checkList kind l n = some e) :
    ∃ b, e = .invalidLines kind b n ∧ b ∈ l ∧ (b ≤ 0 ∨ (n : Int) < b) := by
  cases l with
  | nil => cases h
  | cons x xs =>
    simp only [checkList, validateMinOrMax] at h
    split at h
    · rename_i h1
      cases h
      exact ⟨listMin x xs, rfl, listMin_mem xs x, Or.inl h1⟩
    · split at h
      · rename_i h1 h2
        cases h
        exact ⟨listMax x xs, rfl, listMax_mem xs x, Or.inr h2⟩
      · cases h

theorem checkRange_none_iff (kind : BoundKind) (r : Option (Int × Int)) (n : Nat) :
    checkRange kind r n = none ↔ rangeOk r n := by
  cases r with
  | none => simp [checkRange, rangeOk]
  | some se =>
    obtain ⟨s, e⟩ := se
    simp only [checkRange, validateMinOrMax, rangeOk]
    constructor
    · intro h
      split at h
      · cases h
      · rename_i heq
        split at h
        · cases h
        · rename_i hgt
          split at heq
          · cases heq
          · rename_i hmin
            split at heq
            · cases heq
            · rename_i hmax
              have h5 := min_le_left s e
              have h6 := min_le_right s e
              have h7 := le_max_left s e
              have h8 := le_max_right s e
              exact ⟨by omega, by omega, by omega, by omega, by omega⟩
    · rintro ⟨h1, h2, h3, h4, h5⟩
      rw [if_neg (by have := le_min h1 h3; omega)]
      rw [if_neg (by have := max_le h2 h4; omega)]
      show (if s > e then some (ToolErr.rangeOrder kind s e) else none) = none
      rw [if_neg (by omega)]

theorem checkRange_some_spec (kind : BoundKind) (r : Option (Int × Int)) (n : Nat)
    (e : ToolErr) (h : checkRange kind r n = some e) :
    ∃ s t, r = some (s, t) ∧
      ((∃ b, e = .invalidLines kind b n ∧ (b = s ∨ b = t) ∧ (b ≤ 0 ∨ (n : Int) < b)) ∨
        (e = .rangeOrder kind s t ∧ t < s)) := by
  cases r with
  | none => cases h
  | some se =>
    obtain ⟨s, t⟩ := se
    refine ⟨s, t, rfl, ?_⟩
    simp only [checkRange, validateMinOrMax] at h
    split at h
    · rename_i err heq
      injection h with h2
      subst h2
      split at heq
      · rename_i hmin
        injection heq with heq2
        subst heq2
        refine Or.inl ⟨min s t, rfl, ?_, Or.inl hmin⟩
        rcases min_cases s t with ⟨hm, _⟩ | ⟨hm, _⟩
        · exact Or.inl hm
        · exact Or.inr hm
      · split at heq
        · rename_i hmin hmax
          injection heq with heq2
          subst heq2
          refine Or.inl ⟨max s t, rfl, ?_, Or.inr hmax⟩
          rcases max_cases s t with ⟨hx, _⟩ | ⟨hx, _⟩
          · exact Or.inl hx
          · exact Or.inr hx
        · cases heq
    · rename_i heq
      split at h
      · rename_i hgt
        injection h with h2
        subst h2
        exact Or.inr ⟨rfl, by omega⟩
      · cases h

theorem validateParams_none_iff (prm : ReplaceParams) (n : Nat) :
    validateParams prm n = none ↔ paramsOk prm n := by
  unfold validateParams paramsOk
  constructor
  · intro h
    split at h
    · cases h
    · rename_i h1
      split at h
      · cases h
      · rename_i h2
        split at h
        · cases h
        · rename_i h3
          exact ⟨(checkList_none_iff _ _ _).mp h1, (checkRange_none_iff _ _ _).mp h2,
            (checkList_none_iff _ _ _).mp h3, (checkRange_none_iff _ _ _).mp h⟩
  · rintro ⟨h1, h2, h3, h4⟩
    rw [(checkList_none_iff _ _ _).mpr h1]
    rw [(checkRange_none_iff _ _ _).mpr h2]
    rw [(checkList_none_iff _ _ _).mpr h3]
    rw [(checkRange_none_iff _ _ _).mpr h4]

theorem validateParams_some_spec (prm : ReplaceParams) (n : Nat) (e : ToolErr)
    (h : validateParams prm n = some e) :
    (∃ kind b, e = .invalidLines kind b n ∧ suppliedIdx prm b ∧ (b ≤ 0 ∨ (n : Int) < b)) ∨
      (∃ kind s t, e = .rangeOrder kind s t ∧ t < s ∧
        (prm.lineRange = some (s, t) ∨ prm.deleteRange = some (s, t))) := by
  unfold validateParams at h
  split at h
  · rename_i e1 h1
    cases h
    obtain ⟨b, hb1, hb2, hb3⟩ := checkList_some_spec _ _ _ _ h1
    exact Or.inl ⟨_, b, hb1, Or.inl hb2, hb3⟩
  · split at h
    · rename_i e1 h1
      cases h
      obtain ⟨s, t, hr, hspec⟩ := checkRange_some_spec _ _ _ _ h1
      rcases hspec with ⟨b, hb1, hb2, hb3⟩ | ⟨he, hlt⟩
      · exact Or.inl ⟨_, b, hb1, Or.inr (Or.inl ⟨s, t, hr, hb2⟩), hb3⟩
      · exact Or.inr ⟨_, s, t, he, hlt, Or.inl hr⟩
    · split at h
      · rename_i e1 h1
        cases h
        obtain ⟨b, hb1, hb2, hb3⟩ := checkList_some_spec _ _ _ _ h1
        exact Or.inl ⟨_, b, hb1, Or.inr (Or.inr (Or.inl hb2)), hb3⟩
      · obtain ⟨s, t, hr, hspec⟩ := checkRange_some_spec _ _ _ _ h
        rcases hspec with ⟨b, hb1, hb2, hb3⟩ | ⟨he, hlt⟩
        · exact Or.inl ⟨_, b, hb1, Or.inr (Or.inr (Or.inr ⟨s, t, hr, hb2⟩)), hb3⟩
        · exact Or.inr ⟨_, s, t, he, hlt, Or.inr hr⟩

/-- Claim C9: for every path whose history stack is empty, undo_edit
fails with a NoHistory error naming the path — covering both a path never
mutated and a path whose entries were all consumed — and the state (in
particular the file) is unchanged. -/
theorem undo_edit_no_history (st : EditorState) (p : Nat) (raw : Str)
    (hf : st.files p = some raw) (hh : st.history p = []) :
    callCmd st p Cmd.undoEdit = (st, some (ToolErr.noHistory p)) := by
  simp only [callCmd, hf, undoMethod, hh]

/-- Witness for C9 at a concrete one-file state with empty history. -/
theorem undo_edit_no_history_witness :
    callCmd (EditorState.mk (fun q => if q = 0 then some ['a'] else none) (fun _ => []))
      0 Cmd.undoEdit =
      (EditorState.mk (fun q => if q = 0 then some ['a'] else none) (fun _ => []),
        some (ToolErr.noHistory 0)) :=
  undo_edit_no_history _ 0 ['a'] rfl rfl

/-- Claim C7: insert accepts exactly the insertion points 0..num_lines of
the tab-expanded file: in range it splices the new lines (split on
newlines) after the first line existing lines and records history, line=0
prepends, line=num_lines appends, and any line outside the range fails
with the InvalidParameter error, leaving the state unchanged. -/
theorem insert_bounds_and_splice (st : EditorState) (p : Nat) (raw text : Str) (line : Int)
    (hf : st.files p = some raw) :
    ((0 ≤ line ∧ line ≤ ((splitNl (expandtabs raw)).length : Int)) →
      (insertMethod st p line text).2 = none ∧
      (insertMethod st p line text).1.files p =
        some (joinNl ((splitNl (expandtabs raw)).take line.toNat ++
          splitNl (expandtabs text) ++ (splitNl (expandtabs raw)).drop line.toNat)) ∧
      (insertMethod st p line text).1.history p = expandtabs raw :: st.history p) ∧
    ((line < 0 ∨ ((splitNl (expandtabs raw)).length : Int) < line) →
      insertMethod st p line text =
        (st, some (.invalidInsertLine line (splitNl (expandtabs raw)).length))) ∧
    (line = 0 → (insertMethod st p line text).1.files p =
      some (joinNl (splitNl (expandtabs text) ++ splitNl (expandtabs raw)))) ∧
    (line = ((splitNl (expandtabs raw)).length : Int) →
      (insertMethod st p line text).1.files p =
        some (joinNl (splitNl (expandtabs raw) ++ splitNl (expandtabs text)))) := by
  have hunfold : insertMethod st p line text =
      if line < 0 ∨ ((splitNl (expandtabs raw)).length : Int) < line then
        (st, some (.invalidInsertLine line (splitNl (expandtabs raw)).length))
      else
        (pushHist (writeFile st p (joinNl ((splitNl (expandtabs raw)).take line.toNat ++
          splitNl (expandtabs text) ++ (splitNl (expandtabs raw)).drop line.toNat))) p
          (expandtabs raw), none) := by
    simp only [insertMethod, hf]
  refine ⟨?_, ?_, ?_, ?_⟩
  · rintro ⟨h1, h2⟩
    rw [hunfold, if_neg (by omega)]
    refine ⟨rfl, ?_, ?_⟩
    · simp [pushHist, writeFile]
    · simp [pushHist, writeFile]
  · intro hbad
    rw [hunfold, if_pos hbad]
  · intro h0
    subst h0
    rw [hunfold, if_neg (by omega)]
    simp [pushHist, writeFile]
  · intro hn
    rw [hunfold, if_neg (by omega)]
    have htn : line.toNat = (splitNl (expandtabs raw)).length := by omega
    simp [pushHist, writeFile, htn]

/-- Witness for C7 on a concrete two-line file with an in-range, a
prepending, an appending and an out-of-range insertion point. -/
theorem insert_bounds_and_splice_witness :
    ((0 ≤ (2 : Int) ∧ (2 : Int) ≤ ((splitNl (expandtabs ['a', '\n', 'b'])).length : Int)) →
      (insertMethod (EditorState.mk (fun q => if q = 0 then some ['a', '\n', 'b'] else none)
          (fun _ => [])) 0 2 ['c']).2 = none ∧
      (insertMethod (EditorState.mk (fun q => if q = 0 then some ['a', '\n', 'b'] else none)
          (fun _ => [])) 0 2 ['c']).1.files 0 =
        some (joinNl ((splitNl (expandtabs ['a', '\n', 'b'])).take (2 : Int).toNat ++
          splitNl (expandtabs ['c']) ++
          (splitNl (expandtabs ['a', '\n', 'b'])).drop (2 : Int).toNat)) ∧
      (insertMethod (EditorState.mk (fun q => if q = 0 then some ['a', '\n', 'b'] else none)
          (fun _ => [])) 0 2 ['c']).1.history 0 =
        expandtabs ['a', '\n', 'b'] ::
          (EditorState.mk (fun q => if q = 0 then some ['a', '\n', 'b'] else none)
            (fun _ => [])).history 0) ∧
    (((2 : Int) < 0 ∨ ((splitNl (expandtabs ['a', '\n', 'b'])).length : Int) < (2 : Int)) →
      insertMethod (EditorState.mk (fun q => if q = 0 then some ['a', '\n', 'b'] else none)
          (fun _ => [])) 0 2 ['c'] =
        (EditorState.mk (fun q => if q = 0 then some ['a', '\n', 'b'] else none) (fun _ => []),
          some (.invalidInsertLine 2 (splitNl (expandtabs ['a', '\n', 'b'])).length))) ∧
    ((2 : Int) = 0 →
      (insertMethod (EditorState.mk (fun q => if q = 0 then some ['a', '\n', 'b'] else none)
          (fun _ => [])) 0 2 ['c']).1.files 0 =
        some (joinNl (splitNl (expandtabs ['c']) ++ splitNl (expandtabs ['a', '\n', 'b'])))) ∧
    ((2 : Int) = ((splitNl (expandtabs ['a', '\n', 'b'])).length : Int) →
      (insertMethod (EditorState.mk (fun q => if q = 0 then some ['a', '\n', 'b'] else none)
          (fun _ => [])) 0 2 ['c']).1.files 0 =
        some (joinNl (splitNl (expandtabs ['a', '\n', 'b']) ++ splitNl (expandtabs ['c'])))) :=
  insert_bounds_and_splice _ 0 ['a', '\n', 'b'] ['c'] 2 rfl

/-- Claim C3 evaluation: a str_replace call with the LineNumbers selector
and an out-of-range line number does not silently skip it — the
validation block raises the invalid-line error first (editor.py line
197), leaving the state unchanged.  This contradicts the docstring of
str_replace (editor.py line 131, "If a line number is out of range, it
will be ignored") and the dead in-loop guard at line 247, so the claim
records a code bug rather than an amended claim. -/
theorem line_numbers_out_of_range_errors :
    strReplaceMethod
      (EditorState.mk (fun q => if q = 0 then some ['a', 'b', '\n', 'c'] else none)
        (fun _ => []))
      0 ['a'] (some ['X']) (ReplaceParams.mk [(3 : Int)] none false [] none false) =
      (EditorState.mk (fun q => if q = 0 then some ['a', 'b', '\n', 'c'] else none)
        (fun _ => []),
        some (ToolErr.invalidLines BoundKind.lineNumber 3 2)) := by
  rfl

/-- Claim C2: whenever a supplied selector parameter of str_replace is
out of bounds (an index outside 1..num_lines of the tab-expanded file, or
a range with start after end), the call fails with an error carrying the
offending bound and the valid line count (or the offending unordered
range), and the state — file content and history — is unchanged, the
validation having run before any mutation. -/
theorem str_replace_validates_before_mutation (st : EditorState) (p : Nat) (raw oldStr : Str)
    (newStr : Option Str) (prm : ReplaceParams) (hf : st.files p = some raw)
    (hbad : ¬ paramsOk prm (splitNl (expandtabs raw)).length) :
    ∃ e, strReplaceMethod st p oldStr newStr prm = (st, some e) ∧
      ((∃ kind b, e = .invalidLines kind b (splitNl (expandtabs raw)).length ∧
          suppliedIdx prm b ∧
          (b ≤ 0 ∨ ((splitNl (expandtabs raw)).length : Int) < b)) ∨
        (∃ kind s t, e = .rangeOrder kind s t ∧ t < s ∧
          (prm.lineRange = some (s, t) ∨ prm.deleteRange = some (s, t)))) := by
  have hv : ∃ e, validateParams prm (splitNl (expandtabs raw)).length = some e := by
    cases hval : validateParams prm (splitNl (expandtabs raw)).length with
    | none => exact absurd ((validateParams_none_iff _ _).mp hval) hbad
    | some e => exact ⟨e, rfl⟩
  obtain ⟨e, he⟩ := hv
  refine ⟨e, ?_, validateParams_some_spec _ _ _ he⟩
  simp only [strReplaceMethod, hf, he]

/-- Witness for C2: a one-line file with line_numbers containing 3. -/
theorem str_replace_validates_before_mutation_witness :
    ∃ e, strReplaceMethod
        (EditorState.mk (fun q => if q = 0 then some ['a'] else none) (fun _ => []))
        0 ['x'] (some ['y']) (ReplaceParams.mk [(3 : Int)] none false [] none false) =
      (EditorState.mk (fun q => if q = 0 then some ['a'] else none) (fun _ => []), some e) ∧
      ((∃ kind b, e = .invalidLines kind b (splitNl (expandtabs ['a'])).length ∧
          suppliedIdx (ReplaceParams.mk [(3 : Int)] none false [] none false) b ∧
          (b ≤ 0 ∨ ((splitNl (expandtabs ['a'])).length : Int) < b)) ∨
        (∃ kind s t, e = .rangeOrder kind s t ∧ t < s ∧
          ((ReplaceParams.mk [(3 : Int)] none false [] none false).lineRange = some (s, t) ∨
            (ReplaceParams.mk [(3 : Int)] none false [] none false).deleteRange =
              some (s, t)))) :=
  str_replace_validates_before_mutation _ 0 ['a'] ['x'] (some ['y']) _ rfl
    (by simp [paramsOk, boundsOk, rangeOk]; decide)

theorem resolveReplace_noSel (p : Nat) (content old new : Str) :
    resolveReplace p content old new (ReplaceParams.mk [] none false [] none false) =
      (if pyCount content old = 0 then Except.error (ToolErr.notFound p old)
       else if pyCount content old > 1 then
         Except.error (ToolErr.ambiguousMatch old (ambiguousLineNums content old))
       else Except.ok (pyReplace content old new)) := rfl

theorem strReplaceMethod_noSel (st : EditorState) (p : Nat) (raw oldStr : Str)
    (newStr : Option Str) (hf : st.files p = some raw) :
    strReplaceMethod st p oldStr newStr (ReplaceParams.mk [] none false [] none false) =
      match resolveReplace p (expandtabs raw) (expandtabs oldStr)
          (optExpand newStr)
          (ReplaceParams.mk [] none false [] none false) with
      | .error e => (st, some e)
      | .ok newContent =>
        if (expandtabs oldStr).isEmpty then
          (pushHist (writeFile st p newContent) p (expandtabs raw), some ToolErr.emptySeparator)
        else (pushHist (writeFile st p newContent) p (expandtabs raw), none) := by
  simp only [strReplaceMethod, hf]
  rfl

/-- Claim C1 counterexample: on content aaaa with old_str aa, the needle
occurs twice (Python count is non-overlapping), yet the AmbiguousMatch
error lists three line numbers, because the scanning loop resumes one
character past each match start and therefore also records overlapping
occurrences.  So the error does not list exactly N entries for N
occurrences. -/
theorem first_occurrence_ambiguous_overlap_counterexample :
    pyCount ['a', 'a', 'a', 'a'] ['a', 'a'] = 2 ∧
    (strReplaceMethod
        (EditorState.mk (fun q => if q = 0 then some ['a', 'a', 'a', 'a'] else none)
          (fun _ => []))
        0 ['a', 'a'] (some ['b']) (ReplaceParams.mk [] none false [] none false)).2 =
      some (ToolErr.ambiguousMatch ['a', 'a'] [1, 1, 1]) ∧
    ([1, 1, 1] : List Nat).length ≠ 2 := by
  have h : ambiguousLineNums ['a', 'a', 'a', 'a'] ['a', 'a'] = [1, 1, 1] := by
    unfold ambiguousLineNums
    rw [occStarts_eq_filter_range]
    decide
  refine ⟨by decide, ?_, by decide⟩
  have step : (strReplaceMethod
        (EditorState.mk (fun q => if q = 0 then some ['a', 'a', 'a', 'a'] else none)
          (fun _ => []))
        0 ['a', 'a'] (some ['b']) (ReplaceParams.mk [] none false [] none false)).2 =
      some (ToolErr.ambiguousMatch ['a', 'a']
        (ambiguousLineNums ['a', 'a', 'a', 'a'] ['a', 'a'])) := rfl
  rw [step, h]

/-- Claim C1 (amended): with no selector parameters and regex false,
str_replace on the tab-expanded content and old_str behaves by occurrence
count (Python count, non-overlapping): 0 occurrences fails with NotFound
naming the path and old_str; 2 or more fails with AmbiguousMatch whose
list has one entry per match position scanned resuming one past each
previous match start — that is, one entry per possibly-overlapping match
position, which can exceed the count when old_str overlaps itself — each
entry being one plus the number of newlines before that position; exactly
1 occurrence replaces it (the file then holds the content with the
leftmost match spliced out for new_str). -/
theorem first_occurrence_literal_trichotomy (st : EditorState) (p : Nat) (raw oldStr : Str)
    (newStr : Option Str) (hf : st.files p = some raw) :
    (pyCount (expandtabs raw) (expandtabs oldStr) = 0 →
      strReplaceMethod st p oldStr newStr (ReplaceParams.mk [] none false [] none false) =
        (st, some (.notFound p (expandtabs oldStr)))) ∧
    (2 ≤ pyCount (expandtabs raw) (expandtabs oldStr) →
      strReplaceMethod st p oldStr newStr (ReplaceParams.mk [] none false [] none false) =
        (st, some (.ambiguousMatch (expandtabs oldStr)
          (((List.range ((expandtabs raw).length + 1)).filter
              (fun i => (expandtabs oldStr).isPrefixOf ((expandtabs raw).drop i))).map
            (fun idx => ((expandtabs raw).take idx).count '\n' + 1))))) ∧
    (pyCount (expandtabs raw) (expandtabs oldStr) = 1 →
      (strReplaceMethod st p oldStr newStr
          (ReplaceParams.mk [] none false [] none false)).1.files p =
        some (pyReplace (expandtabs raw) (expandtabs oldStr)
          (optExpand newStr)) ∧
      ∃ i, (expandtabs oldStr).isPrefixOf ((expandtabs raw).drop i) = true ∧
        (∀ j, j < i → (expandtabs oldStr).isPrefixOf ((expandtabs raw).drop j) = false) ∧
        pyReplace (expandtabs raw) (expandtabs oldStr)
            (optExpand newStr) =
          (expandtabs raw).take i ++
            (optExpand newStr) ++
            (expandtabs raw).drop (i + (expandtabs oldStr).length)) := by
  refine ⟨?_, ?_, ?_⟩
  · intro hc
    rw [strReplaceMethod_noSel st p raw oldStr newStr hf, resolveReplace_noSel]
    rw [if_pos hc]
  · intro hc
    rw [strReplaceMethod_noSel st p raw oldStr newStr hf, resolveReplace_noSel]
    rw [if_neg (by omega), if_pos (by omega)]
    simp only [ambiguousLineNums, occStarts_eq_filter_range]
  · intro hc
    constructor
    · rw [strReplaceMethod_noSel st p raw oldStr newStr hf, resolveReplace_noSel]
      rw [if_neg (by omega), if_neg (by omega)]
      split
      · rename_i e heq
        cases heq
      · rename_i nc heq
        injection heq with heq2
        subst heq2
        split
        · simp [pushHist, writeFile]
        · simp [pushHist, writeFile]
    · by_cases hold : expandtabs oldStr = []
      · rw [hold] at hc ⊢
        have hcontent : expandtabs raw = [] := by
          unfold pyCount at hc
          simp only [List.isEmpty_nil, if_true] at hc
          cases he : expandtabs raw
          · rfl
          · rw [he] at hc
            simp at hc
        rw [hcontent]
        refine ⟨0, by decide, by omega, ?_⟩
        simp [pyReplace, replaceEmptySep]
      · have hcg : countGo (expandtabs oldStr) (expandtabs raw) 0 = 1 := by
          unfold pyCount at hc
          rw [if_neg (by simpa [List.isEmpty_iff] using hold)] at hc
          exact hc
        obtain ⟨i, h1, h2, h3⟩ :=
          countGo_one_splice (expandtabs oldStr)
            (optExpand newStr) hold (expandtabs raw) hcg
        refine ⟨i, h1, h2, ?_⟩
        unfold pyReplace
        rw [if_neg (by simpa [List.isEmpty_iff] using hold)]
        exact h3

/-- Witness for C1 (amended) at a concrete state: a file whose content
does not contain the needle, taking the NotFound branch. -/
theorem first_occurrence_literal_trichotomy_witness :
    strReplaceMethod
      (EditorState.mk (fun q => if q = 0 then some ['a', 'b'] else none) (fun _ => []))
      0 ['z'] (some ['y']) (ReplaceParams.mk [] none false [] none false) =
      (EditorState.mk (fun q => if q = 0 then some ['a', 'b'] else none) (fun _ => []),
        some (.notFound 0 (expandtabs ['z']))) :=
  (first_occurrence_literal_trichotomy _ 0 ['a', 'b'] ['z'] (some ['y']) rfl).1 (by decide)

/-- Claim C4 counterexample: in AllOccurrences literal mode the content
is split with str.splitlines and rejoined with a newline, which drops a
trailing newline: on content a-newline with a multi-line old_str that
matches nowhere, the resolved content is just a, not the original
content.  Splitting is therefore not information-preserving in this
mode. -/
theorem line_all_trailing_newline_counterexample :
    resolveReplace 0 ['a', '\n'] ['x', '\n', 'y'] ['z']
        (ReplaceParams.mk [] none true [] none false) = .ok ['a'] ∧
    (['a'] : Str) ≠ ['a', '\n'] := by
  constructor
  · have hsp : splitlinesGo ['a', '\n'] = [['a']] := by
      simp [splitlinesGo, lineBoundary, dropLf]
    simp [resolveReplace, hsp, joinNl, pyReplace, replGo, List.isPrefixOf]
  · decide

/-- Claim C4 (amended): in AllOccurrences mode with regex false the
substring replacement is applied independently within each
str.splitlines line, so a literal old_str containing a newline never
matches and every line is returned unchanged; the resolved content is
the splitlines decomposition rejoined with newline, which equals the
original content exactly when the content contains no line boundary
character other than newline and does not end in a newline (a trailing
or exotic line terminator is lost by the rejoin). -/
theorem line_all_literal_multiline (p : Nat) (content old new : Str) (prm : ReplaceParams)
    (hla : prm.lineAll = true) (hrx : prm.regex = false) (hnl : '\n' ∈ old) :
    resolveReplace p content old new prm = .ok (joinNl (splitlinesGo content)) ∧
    (∀ l, l ∈ splitlinesGo content → ¬ '\n' ∈ l) ∧
    ((∀ c, c ∈ content → lineBoundary c = true → c = '\n') →
      content.getLast? ≠ some '\n' → joinNl (splitlinesGo content) = content) := by
  refine ⟨?_, ?_, joinNl_splitlinesGo content⟩
  · have hmap : (splitlinesGo content).map (fun l => pyReplace l old new) =
        splitlinesGo content := by
      have hid : ∀ ls : List Str, (∀ l, l ∈ ls → pyReplace l old new = l) →
          ls.map (fun l => pyReplace l old new) = ls := by
        intro ls h
        induction ls with
        | nil => rfl
        | cons a t ih =>
          simp only [List.map_cons, h a (List.mem_cons_self _ _), List.cons.injEq, true_and]
          exact ih (fun l hl => h l (List.mem_cons_of_mem a hl))
      apply hid
      intro l hl
      exact pyReplace_id_of_boundary_free l old new hnl
        (fun c hc => splitlinesGo_no_boundary content l hl c hc)
    simp only [resolveReplace, hla, hrx, Bool.not_true]
    simp only [Bool.false_eq_true, if_false, hmap]
  · intro l hl hmem
    have := splitlinesGo_no_boundary content l hl '\n' hmem
    simp [lineBoundary] at this

/-- Witness for C4 (amended) on a concrete content with a trailing
newline and a concrete multi-line needle. -/
theorem line_all_literal_multiline_witness :
    resolveReplace 0 ['a', '\n', 'b'] ['x', '\n', 'y'] ['z']
        (ReplaceParams.mk [] none true [] none false) =
      .ok (joinNl (splitlinesGo ['a', '\n', 'b'])) :=
  (line_all_literal_multiline 0 ['a', '\n', 'b'] ['x', '\n', 'y'] ['z']
    (ReplaceParams.mk [] none true [] none false) rfl rfl (by decide)).1

/-- Claim C8 counterexample: in FirstOccurrence regex mode the
substitution is done without the DOTALL flag (editor.py line 267 passes
no flags, unlike lines 249, 259 and 295), so the pattern a.b does not
match the content a-newline-b and the content is returned unchanged,
while the same substitution under dot-matches-newline semantics would
rewrite it.  The first-occurrence regex site therefore does not share
the dot-matches-all semantics of the other regex sites. -/
theorem first_occurrence_regex_dotall_counterexample :
    resolveReplace 0 ['a', '\n', 'b'] ['a', '.', 'b'] ['X']
        (ReplaceParams.mk [] none false [] none true) = .ok ['a', '\n', 'b'] ∧
    reSubFirst true (parsePattern ['a', '.', 'b']) ['X'] ['a', '\n', 'b'] = ['X'] ∧
    (['a', '\n', 'b'] : Str) ≠ ['X'] := by
  refine ⟨by rfl, by decide, by decide⟩

/-- Claim C8 (amended): in FirstOccurrence regex mode str_replace
substitutes only the leftmost regex match in the whole content — if the
pattern matches nowhere the content is unchanged, and if its leftmost
match starts at j, exactly that span is replaced and no earlier position
matches — but the matching runs without the dot-matches-newline flag
used at every other regex site of the resolver. -/
theorem first_occurrence_regex_first_match (p : Nat) (content pat new : Str)
    (prm : ReplaceParams) (hln : prm.lineNumbers = []) (hlr : prm.lineRange = none)
    (hla : prm.lineAll = false) (hrx : prm.regex = true) :
    resolveReplace p content pat new prm =
      .ok (reSubFirst false (parsePattern pat) new content) ∧
    (reFindFirst false (parsePattern pat) content = none →
      reSubFirst false (parsePattern pat) new content = content) ∧
    (∀ j, reFindFirst false (parsePattern pat) content = some j →
      matchesAt false (parsePattern pat) (content.drop j) = true ∧
      (∀ k, k < j → matchesAt false (parsePattern pat) (content.drop k) = false) ∧
      reSubFirst false (parsePattern pat) new content =
        content.take j ++ new ++ content.drop (j + (parsePattern pat).length)) := by
  refine ⟨?_, ?_, ?_⟩
  · simp only [resolveReplace, hln, hlr, hla, hrx, Bool.not_false, List.isEmpty_nil,
      Bool.not_true, if_true]
    simp only [Bool.false_eq_true, if_false]
  · intro hn
    rw [reSubFirst_spec, hn]
  · intro j hj
    obtain ⟨h1, h2⟩ := reFindFirst_some false (parsePattern pat) content j hj
    refine ⟨h1, h2, ?_⟩
    rw [reSubFirst_spec, hj]

/-- Witness for C8 (amended) at a concrete content and pattern. -/
theorem first_occurrence_regex_first_match_witness :
    resolveReplace 0 ['a', '\n', 'b'] ['a', '.', 'b'] ['X']
        (ReplaceParams.mk [] none false [] none true) =
      .ok (reSubFirst false (parsePattern ['a', '.', 'b']) ['X'] ['a', '\n', 'b']) :=
  (first_occurrence_regex_first_match 0 ['a', '\n', 'b'] ['a', '.', 'b'] ['X']
    (ReplaceParams.mk [] none false [] none true) rfl rfl rfl rfl).1

/-- Complete case analysis of strReplaceMethod: it either fails leaving
the state unchanged (missing path, validation error, or a NotFound or
AmbiguousMatch resolution error in the default variant), or it writes a
new content and pushes the tab-expanded pre-mutation content — via the
delete_lines branch, the delete_range branch, or a successful
resolution, the last failing with the empty-separator error after the
write and push when old_str is empty. -/
theorem strReplaceMethod_shape (st : EditorState) (p : Nat) (oldStr : Str)
    (newStr : Option Str) (prm : ReplaceParams) :
    (∃ e, strReplaceMethod st p oldStr newStr prm = (st, some e) ∧
      ((st.files p = none ∧ e = .pathNotFound p) ∨
        (∃ raw, st.files p = some raw ∧
          (validateParams prm (splitNl (expandtabs raw)).length = some e ∨
            (validateParams prm (splitNl (expandtabs raw)).length = none ∧
              prm.deleteLines.isEmpty = true ∧ prm.deleteRange = none ∧
              resolveReplace p (expandtabs raw) (expandtabs oldStr)
                (optExpand newStr) prm =
                .error e))))) ∨
    (∃ raw, st.files p = some raw ∧
      validateParams prm (splitNl (expandtabs raw)).length = none ∧
      ((prm.deleteLines.isEmpty = false ∧
          strReplaceMethod st p oldStr newStr prm =
            (pushHist (writeFile st p
              (joinNl (deleteByNumbers (splitNl (expandtabs raw)) prm.deleteLines))) p
              (expandtabs raw), none)) ∨
        (∃ s e2, prm.deleteLines.isEmpty = true ∧ prm.deleteRange = some (s, e2) ∧
          strReplaceMethod st p oldStr newStr prm =
            (pushHist (writeFile st p
              (joinNl (deleteByRange (splitNl (expandtabs raw)) s e2))) p
              (expandtabs raw), none)) ∨
        (∃ newContent, prm.deleteLines.isEmpty = true ∧ prm.deleteRange = none ∧
          resolveReplace p (expandtabs raw) (expandtabs oldStr)
            (optExpand newStr) prm =
            .ok newContent ∧
          strReplaceMethod st p oldStr newStr prm =
            (if (expandtabs oldStr).isEmpty then
              (pushHist (writeFile st p newContent) p (expandtabs raw),
                some ToolErr.emptySeparator)
            else (pushHist (writeFile st p newContent) p (expandtabs raw), none))))) := by
  obtain ⟨fp, hfp⟩ : ∃ x, st.files p = x := ⟨_, rfl⟩
  cases fp with
  | none =>
    refine Or.inl ⟨.pathNotFound p, ?_, Or.inl ⟨hfp, rfl⟩⟩
    simp only [strReplaceMethod, hfp]
  | some raw =>
    have h1 : strReplaceMethod st p oldStr newStr prm =
        (match validateParams prm (splitNl (expandtabs raw)).length with
        | some e => (st, some e)
        | none =>
          if !prm.deleteLines.isEmpty then
            (pushHist (writeFile st p
              (joinNl (deleteByNumbers (splitNl (expandtabs raw)) prm.deleteLines))) p
              (expandtabs raw), none)
          else
            match prm.deleteRange with
            | some (s, e2) =>
              (pushHist (writeFile st p
                (joinNl (deleteByRange (splitNl (expandtabs raw)) s e2))) p
                (expandtabs raw), none)
            | none =>
              match resolveReplace p (expandtabs raw) (expandtabs oldStr)
                  (optExpand newStr) prm with
              | .error e => (st, some e)
              | .ok newContent =>
                if (expandtabs oldStr).isEmpty then
                  (pushHist (writeFile st p newContent) p (expandtabs raw),
                    some ToolErr.emptySeparator)
                else (pushHist (writeFile st p newContent) p (expandtabs raw), none)) := by
      simp only [strReplaceMethod, hfp]
    obtain ⟨vp, hval⟩ : ∃ x, validateParams prm (splitNl (expandtabs raw)).length = x :=
      ⟨_, rfl⟩
    cases vp with
    | some e =>
      refine Or.inl ⟨e, ?_, Or.inr ⟨raw, hfp, Or.inl hval⟩⟩
      rw [h1, hval]
    | none =>
      by_cases hdl : prm.deleteLines.isEmpty = true
      · obtain ⟨dr, hdr⟩ : ∃ x, prm.deleteRange = x := ⟨_, rfl⟩
        cases dr with
        | some se =>
          obtain ⟨s, e2⟩ := se
          refine Or.inr ⟨raw, hfp, hval, Or.inr (Or.inl ⟨s, e2, hdl, hdr, ?_⟩)⟩
          rw [h1, hval, if_neg (by simp [hdl]), hdr]
        | none =>
          obtain ⟨res, hres⟩ : ∃ x, resolveReplace p (expandtabs raw) (expandtabs oldStr)
              (optExpand newStr) prm = x := ⟨_, rfl⟩
          cases res with
          | error e =>
            refine Or.inl ⟨e, ?_, Or.inr ⟨raw, hfp, Or.inr ⟨hval, hdl, hdr, hres⟩⟩⟩
            rw [h1, hval, if_neg (by simp [hdl]), hdr, hres]
          | ok newContent =>
            refine Or.inr ⟨raw, hfp, hval,
              Or.inr (Or.inr ⟨newContent, hdl, hdr, hres, ?_⟩)⟩
            rw [h1, hval, if_neg (by simp [hdl]), hdr, hres]
      · have hdl2 : prm.deleteLines.isEmpty = false := Bool.eq_false_iff.mpr hdl
        refine Or.inr ⟨raw, hfp, hval, Or.inl ⟨hdl2, ?_⟩⟩
        rw [h1, hval, if_pos (by simp [hdl2])]

/-- Claim C6 counterexample: for a file containing a tab, str_replace
snapshots the tab-expanded content, so a subsequent undo_edit writes
back the expanded text, which is not byte-for-byte equal to the
pre-mutation file. -/
theorem undo_tab_expansion_counterexample :
    (callCmd (callCmd
        (EditorState.mk (fun q => if q = 0 then some ['a', '\t', 'b'] else none) (fun _ => []))
        0 (Cmd.strReplace ['a'] (some ['c'])
          (ReplaceParams.mk [] none false [] none false))).1
      0 Cmd.undoEdit).1.files 0 =
      some ['a', ' ', ' ', ' ', ' ', ' ', ' ', ' ', 'b'] ∧
    (EditorState.mk (fun q => if q = 0 then some ['a', '\t', 'b'] else none)
      (fun _ => [])).files 0 = some ['a', '\t', 'b'] ∧
    some ['a', ' ', ' ', ' ', ' ', ' ', ' ', ' ', 'b'] ≠
      (some ['a', '\t', 'b'] : Option Str) := by
  refine ⟨rfl, rfl, by decide⟩

/-- Claim C6 (amended): after any successful mutating call, undo_edit
restores the file byte-for-byte to the snapshot recorded at mutation
time: for str_replace and insert the tab-expanded pre-mutation content —
equal to the pre-mutation content exactly when it contains no tab — and
for create the created text itself (the file did not exist before). -/
theorem undo_roundtrip (st : EditorState) (p : Nat) :
    (∀ text, st.files p = none →
      (callCmd (callCmd st p (Cmd.create text)).1 p Cmd.undoEdit).2 = none ∧
      (callCmd (callCmd st p (Cmd.create text)).1 p Cmd.undoEdit).1.files p = some text) ∧
    (∀ oldStr newStr prm st1, callCmd st p (Cmd.strReplace oldStr newStr prm) = (st1, none) →
      ∃ raw, st.files p = some raw ∧
        (callCmd st1 p Cmd.undoEdit).2 = none ∧
        (callCmd st1 p Cmd.undoEdit).1.files p = some (expandtabs raw) ∧
        (¬ '\t' ∈ raw → (callCmd st1 p Cmd.undoEdit).1.files p = some raw)) ∧
    (∀ line text st1, callCmd st p (Cmd.insert line text) = (st1, none) →
      ∃ raw, st.files p = some raw ∧
        (callCmd st1 p Cmd.undoEdit).2 = none ∧
        (callCmd st1 p Cmd.undoEdit).1.files p = some (expandtabs raw) ∧
        (¬ '\t' ∈ raw → (callCmd st1 p Cmd.undoEdit).1.files p = some raw)) := by
  have hundo : ∀ (st2 : EditorState) (nc snap : Str),
      (callCmd (pushHist (writeFile st2 p nc) p snap) p Cmd.undoEdit).2 = none ∧
      (callCmd (pushHist (writeFile st2 p nc) p snap) p Cmd.undoEdit).1.files p = some snap := by
    intro st2 nc snap
    have hfiles : (pushHist (writeFile st2 p nc) p snap).files p = some nc := by
      simp [pushHist, writeFile]
    have hhist : (pushHist (writeFile st2 p nc) p snap).history p =
        snap :: st2.history p := by
      simp [pushHist, writeFile]
    constructor
    · simp only [callCmd, hfiles, undoMethod, hhist]
    · simp only [callCmd, hfiles, undoMethod, hhist]
      simp
  obtain ⟨fp, hfp⟩ : ∃ x, st.files p = x := ⟨_, rfl⟩
  refine ⟨?_, ?_, ?_⟩
  · intro text hnone
    have hcc : callCmd st p (Cmd.create text) = (pushHist (writeFile st p text) p text, none) := by
      simp only [callCmd, hnone]
    rw [hcc]
    exact hundo st text text
  · intro oldStr newStr prm st1 h
    cases fp with
    | none =>
      simp only [callCmd, hfp] at h
      injection h with h1 h2
      cases h2
    | some raw0 =>
      simp only [callCmd, hfp] at h
      by_cases hg : newStr = some oldStr
      · rw [if_pos hg] at h
        injection h with h1 h2
        cases h2
      · rw [if_neg hg] at h
        rcases strReplaceMethod_shape st p oldStr newStr prm with
          ⟨e, hm, _⟩ | ⟨raw, hraw, hval, hbr⟩
        · rw [hm] at h
          injection h with h1 h2
          cases h2
        · refine ⟨raw, hraw, ?_⟩
          have hst1 : ∃ nc, st1 = pushHist (writeFile st p nc) p (expandtabs raw) := by
            rcases hbr with ⟨_, hm⟩ | ⟨s, e2, _, _, hm⟩ | ⟨nc, _, _, _, hm⟩
            · rw [hm] at h
              injection h with h1 h2
              exact ⟨_, h1.symm⟩
            · rw [hm] at h
              injection h with h1 h2
              exact ⟨_, h1.symm⟩
            · by_cases hoe : (expandtabs oldStr).isEmpty = true
              · rw [if_pos hoe] at hm
                rw [hm] at h
                injection h with h1 h2
                cases h2
              · rw [if_neg hoe] at hm
                rw [hm] at h
                injection h with h1 h2
                exact ⟨_, h1.symm⟩
          obtain ⟨nc, hst1⟩ := hst1
          subst hst1
          obtain ⟨hu1, hu2⟩ := hundo st nc (expandtabs raw)
          refine ⟨hu1, hu2, ?_⟩
          intro htab
          rw [hu2, expandtabs_eq_self raw htab]
  · intro line text st1 h
    cases fp with
    | none =>
      simp only [callCmd, hfp] at h
      injection h with h1 h2
      cases h2
    | some raw =>
      simp only [callCmd, hfp] at h
      simp only [insertMethod, hfp] at h
      by_cases hrange : line < 0 ∨ ((splitNl (expandtabs raw)).length : Int) < line
      · rw [if_pos hrange] at h
        injection h with h1 h2
        cases h2
      · rw [if_neg hrange] at h
        injection h with h1 h2
        subst h1
        refine ⟨raw, hfp, ?_⟩
        obtain ⟨hu1, hu2⟩ := hundo st _ (expandtabs raw)
        refine ⟨hu1, hu2, ?_⟩
        intro htab
        rw [hu2, expandtabs_eq_self raw htab]

/-- Witness for C6 (amended): create followed by undo on a concrete
fresh path. -/
theorem undo_roundtrip_witness :
    (callCmd (callCmd (EditorState.mk (fun _ => none) (fun _ => []))
        0 (Cmd.create ['h'])).1 0 Cmd.undoEdit).2 = none ∧
    (callCmd (callCmd (EditorState.mk (fun _ => none) (fun _ => []))
        0 (Cmd.create ['h'])).1 0 Cmd.undoEdit).1.files 0 = some ['h'] :=
  (undo_roundtrip (EditorState.mk (fun _ => none) (fun _ => [])) 0).1 ['h'] rfl

/-- Claim C5 counterexample: a successful create pushes exactly one
history entry, but the entry is the newly created text, while no
pre-mutation content exists for the path (the file was absent), so the
pushed entry is not the pre-mutation file content. -/
theorem create_pushes_new_content_counterexample :
    (callCmd (EditorState.mk (fun _ => none) (fun _ => [])) 0 (Cmd.create ['h', 'i'])).2 =
      none ∧
    (callCmd (EditorState.mk (fun _ => none) (fun _ => []))
        0 (Cmd.create ['h', 'i'])).1.history 0 = [['h', 'i']] ∧
    (EditorState.mk (fun _ => none) (fun _ => [])).files 0 = none := by
  refine ⟨rfl, rfl, rfl⟩

/-- Claim C5 (amended): every successful mutating command pushes exactly
one history entry for its path and no other, the entry being the
tab-expanded pre-mutation content for str_replace and insert but the
created text itself for create; a command failing with an error leaves
the state unchanged, except str_replace with an empty tab-expanded
old_str reaching a successful resolution, which fails with the
empty-separator error only after writing the file and pushing the
history entry. -/
theorem history_ledger_discipline (st : EditorState) (p : Nat) :
    (∀ text st1, callCmd st p (Cmd.create text) = (st1, none) →
      st1.history p = text :: st.history p ∧ st1.files p = some text ∧
      ∀ q, q ≠ p → st1.history q = st.history q ∧ st1.files q = st.files q) ∧
    (∀ oldStr newStr prm st1, callCmd st p (Cmd.strReplace oldStr newStr prm) = (st1, none) →
      ∃ raw, st.files p = some raw ∧ st1.history p = expandtabs raw :: st.history p ∧
        ∀ q, q ≠ p → st1.history q = st.history q ∧ st1.files q = st.files q) ∧
    (∀ line text st1, callCmd st p (Cmd.insert line text) = (st1, none) →
      ∃ raw, st.files p = some raw ∧ st1.history p = expandtabs raw :: st.history p ∧
        ∀ q, q ≠ p → st1.history q = st.history q ∧ st1.files q = st.files q) ∧
    (∀ c st1 e, callCmd st p c = (st1, some e) →
      st1 = st ∨
        (e = ToolErr.emptySeparator ∧
          ∃ oldStr newStr prm raw, c = Cmd.strReplace oldStr newStr prm ∧
            st.files p = some raw ∧ expandtabs oldStr = [] ∧
            st1.history p = expandtabs raw :: st.history p)) := by
  obtain ⟨fp, hfp⟩ : ∃ x, st.files p = x := ⟨_, rfl⟩
  refine ⟨?_, ?_, ?_, ?_⟩
  · intro text st1 h
    cases fp with
    | none =>
      simp only [callCmd, hfp] at h
      injection h with h1 h2
      subst h1
      refine ⟨by simp [pushHist, writeFile], by simp [pushHist, writeFile], ?_⟩
      intro q hq
      simp [pushHist, writeFile, hq]
    | some raw =>
      simp only [callCmd, hfp] at h
      injection h with h1 h2
      cases h2
  · intro oldStr newStr prm st1 h
    cases fp with
    | none =>
      simp only [callCmd, hfp] at h
      injection h with h1 h2
      cases h2
    | some raw0 =>
      simp only [callCmd, hfp] at h
      by_cases hg : newStr = some oldStr
      · rw [if_pos hg] at h
        injection h with h1 h2
        cases h2
      · rw [if_neg hg] at h
        rcases strReplaceMethod_shape st p oldStr newStr prm with
          ⟨e, hm, _⟩ | ⟨raw, hraw, hval, hbr⟩
        · rw [hm] at h
          injection h with h1 h2
          cases h2
        · refine ⟨raw, hraw, ?_⟩
          rcases hbr with ⟨_, hm⟩ | ⟨s, e2, _, _, hm⟩ | ⟨nc, _, _, _, hm⟩
          · rw [hm] at h
            injection h with h1 h2
            subst h1
            refine ⟨by simp [pushHist, writeFile], ?_⟩
            intro q hq
            simp [pushHist, writeFile, hq]
          · rw [hm] at h
            injection h with h1 h2
            subst h1
            refine ⟨by simp [pushHist, writeFile], ?_⟩
            intro q hq
            simp [pushHist, writeFile, hq]
          · by_cases hoe : (expandtabs oldStr).isEmpty = true
            · rw [if_pos hoe] at hm
              rw [hm] at h
              injection h with h1 h2
              cases h2
            · rw [if_neg hoe] at hm
              rw [hm] at h
              injection h with h1 h2
              subst h1
              refine ⟨by simp [pushHist, writeFile], ?_⟩
              intro q hq
              simp [pushHist, writeFile, hq]
  · intro line text st1 h
    cases fp with
    | none =>
      simp only [callCmd, hfp] at h
      injection h with h1 h2
      cases h2
    | some raw =>
      simp only [callCmd, hfp] at h
      simp only [insertMethod, hfp] at h
      by_cases hrange : line < 0 ∨ ((splitNl (expandtabs raw)).length : Int) < line
      · rw [if_pos hrange] at h
        injection h with h1 h2
        cases h2
      · rw [if_neg hrange] at h
        injection h with h1 h2
        subst h1
        refine ⟨raw, hfp, by simp [pushHist, writeFile], ?_⟩
        intro q hq
        simp [pushHist, writeFile, hq]
  · intro c st1 e h
    cases c with
    | create text =>
      cases fp with
      | none =>
        simp only [callCmd, hfp] at h
        injection h with h1 h2
        cases h2
      | some raw =>
        simp only [callCmd, hfp] at h
        injection h with h1 h2
        exact Or.inl h1.symm
    | strReplace oldStr newStr prm =>
      cases fp with
      | none =>
        simp only [callCmd, hfp] at h
        injection h with h1 h2
        exact Or.inl h1.symm
      | some raw0 =>
        simp only [callCmd, hfp] at h
        by_cases hg : newStr = some oldStr
        · rw [if_pos hg] at h
          injection h with h1 h2
          exact Or.inl h1.symm
        · rw [if_neg hg] at h
          rcases strReplaceMethod_shape st p oldStr newStr prm with
            ⟨e2, hm, _⟩ | ⟨raw, hraw, hval, hbr⟩
          · rw [hm] at h
            injection h with h1 h2
            exact Or.inl h1.symm
          · rcases hbr with ⟨_, hm⟩ | ⟨s, e2, _, _, hm⟩ | ⟨nc, _, _, _, hm⟩
            · rw [hm] at h
              injection h with h1 h2
              cases h2
            · rw [hm] at h
              injection h with h1 h2
              cases h2
            · by_cases hoe : (expandtabs oldStr).isEmpty = true
              · rw [if_pos hoe] at hm
                rw [hm] at h
                injection h with h1 h2
                subst h1
                injection h2 with h3
                refine Or.inr ⟨h3.symm, oldStr, newStr, prm, raw, rfl, hraw,
                  by simpa [List.isEmpty_iff] using hoe, by simp [pushHist, writeFile]⟩
              · rw [if_neg hoe] at hm
                rw [hm] at h
                injection h with h1 h2
                cases h2
    | insert line text =>
      cases fp with
      | none =>
        simp only [callCmd, hfp] at h
        injection h with h1 h2
        exact Or.inl h1.symm
      | some raw =>
        simp only [callCmd, hfp] at h
        simp only [insertMethod, hfp] at h
        by_cases hrange : line < 0 ∨ ((splitNl (expandtabs raw)).length : Int) < line
        · rw [if_pos hrange] at h
          injection h with h1 h2
          exact Or.inl h1.symm
        · rw [if_neg hrange] at h
          injection h with h1 h2
          cases h2
    | undoEdit =>
      cases fp with
      | none =>
        simp only [callCmd, hfp] at h
        injection h with h1 h2
        exact Or.inl h1.symm
      | some raw =>
        simp only [callCmd, hfp] at h
        obtain ⟨hist, hh⟩ : ∃ x, st.history p = x := ⟨_, rfl⟩
        cases hist with
        | nil =>
          simp only [undoMethod, hh] at h
          injection h with h1 h2
          exact Or.inl h1.symm
        | cons snap rest =>
          simp only [undoMethod, hh] at h
          injection h with h1 h2
          cases h2

/-- Witness for C5 (amended): a concrete successful create pushes one
entry and leaves other paths untouched. -/
theorem history_ledger_discipline_witness :
    (callCmd (EditorState.mk (fun _ => none) (fun _ => []))
        0 (Cmd.create ['h', 'i'])).1.history 0 =
      ['h', 'i'] :: (EditorState.mk (fun _ => none) (fun _ => [])).history 0 ∧
    (callCmd (EditorState.mk (fun _ => none) (fun _ => []))
        0 (Cmd.create ['h', 'i'])).1.files 0 = some ['h', 'i'] ∧
    ∀ q, q ≠ 0 →
      (callCmd (EditorState.mk (fun _ => none) (fun _ => []))
          0 (Cmd.create ['h', 'i'])).1.history q =
        (EditorState.mk (fun _ => none) (fun _ => [])).history q ∧
      (callCmd (EditorState.mk (fun _ => none) (fun _ => []))
          0 (Cmd.create ['h', 'i'])).1.files q =
        (EditorState.mk (fun _ => none) (fun _ => [])).files q :=
  (history_ledger_discipline (EditorState.mk (fun _ => none) (fun _ => [])) 0).1
    ['h', 'i']
    (callCmd (EditorState.mk (fun _ => none) (fun _ => [])) 0 (Cmd.create ['h', 'i'])).1
    rfl

theorem occursIn_cons (sub : Str) (c : Char) (t : Str) (h : occursIn sub t) :
    occursIn sub (c :: t) := by
  obtain ⟨d, hd⟩ := h
  exact ⟨d + 1, by simpa using hd⟩

theorem splitlinesGo_head_append : ∀ (s : Str) (l : Str) (r : List Str),
    splitlinesGo s = l :: r → ∃ x, s = l ++ x := by
  have main : ∀ (n : Nat) (s : Str), s.length ≤ n → ∀ l r,
      splitlinesGo s = l :: r → ∃ x, s = l ++ x := by
    intro n
    induction n with
    | zero =>
      intro s hs l r hsp
      have : s = [] := by
        cases s
        · rfl
        · simp at hs
      subst this
      simp [splitlinesGo] at hsp
    | succ n ih =>
      intro s hs l r hsp
      cases s with
      | nil => simp [splitlinesGo] at hsp
      | cons c t =>
        rw [splitlinesGo] at hsp
        by_cases hb : lineBoundary c
        · rw [if_pos hb] at hsp
          injection hsp with h1 h2
          subst h1
          exact ⟨c :: t, rfl⟩
        · rw [if_neg hb] at hsp
          cases hsp2 : splitlinesGo t with
          | nil =>
            rw [hsp2] at hsp
            injection hsp with h1 h2
            subst h1
            have : t = [] := by
              by_cases ht : t = []
              · exact ht
              · exact absurd hsp2 (splitlinesGo_ne_nil t ht)
            subst this
            exact ⟨[], rfl⟩
          | cons l2 r2 =>
            rw [hsp2] at hsp
            injection hsp with h1 h2
            subst h1
            obtain ⟨x, hx⟩ := ih t (by simp at hs; omega) l2 r2 hsp2
            exact ⟨x, by rw [hx]; rfl⟩
  intro s l r hsp
  exact main s.length s (le_refl _) l r hsp

theorem occursIn_of_mem_splitlinesGo (sub : Str) : ∀ (s : Str) (l : Str),
    l ∈ splitlinesGo s → occursIn sub l → occursIn sub s := by
  have main : ∀ (n : Nat) (s : Str), s.length ≤ n → ∀ l,
      l ∈ splitlinesGo s → occursIn sub l → occursIn sub s := by
    intro n
    induction n with
    | zero =>
      intro s hs l hl ho
      have : s = [] := by
        cases s
        · rfl
        · simp at hs
      subst this
      simp [splitlinesGo] at hl
    | succ n ih =>
      intro s hs l hl ho
      cases s with
      | nil => simp [splitlinesGo] at hl
      | cons c t =>
        rw [splitlinesGo] at hl
        by_cases hb : lineBoundary c
        · rw [if_pos hb] at hl
          rcases List.mem_cons.mp hl with hle | hlr
          · subst hle
            obtain ⟨d, hd⟩ := ho
            have hsub : sub = [] := by
              rw [List.drop_nil] at hd
              exact (isPrefixOf_nil_iff sub).mp hd
            subst hsub
            exact ⟨0, by simp [List.isPrefixOf]⟩
          · have hrec : occursIn sub (if c = '\r' then dropLf t else t) := by
              have hd : (dropLf t).length ≤ t.length := by
                cases t with
                | nil => simp [dropLf]
                | cons c2 t2 =>
                  simp only [dropLf]
                  split
                  · simp
                  · simp
              have hlen : (if c = '\r' then dropLf t else t).length ≤ n := by
                split
                · simp at hs; omega
                · simp at hs; omega
              exact ih _ hlen l hlr ho
            have hoc : occursIn sub t := by
              by_cases hcr : c = '\r'
              · rw [if_pos hcr] at hrec
                cases t with
                | nil => simpa [dropLf] using hrec
                | cons c2 t2 =>
                  simp only [dropLf] at hrec
                  by_cases hc2 : c2 = '\n'
                  · rw [if_pos hc2] at hrec
                    exact occursIn_cons sub c2 t2 hrec
                  · rwa [if_neg hc2] at hrec
              · rwa [if_neg hcr] at hrec
            exact occursIn_cons sub c t hoc
        · rw [if_neg hb] at hl
          cases hsp2 : splitlinesGo t with
          | nil =>
            rw [hsp2] at hl
            simp only [List.mem_singleton] at hl
            subst hl
            obtain ⟨d, hd⟩ := ho
            cases d with
            | zero =>
              rw [isPrefixOf_iff_ex] at hd
              obtain ⟨x, hx⟩ := hd
              refine ⟨0, ?_⟩
              rw [isPrefixOf_iff_ex]
              cases sub with
              | nil => exact ⟨c :: t, rfl⟩
              | cons a as =>
                simp only [List.drop_zero] at hx
                cases as with
                | nil =>
                  injection hx with hx1 hx2
                  subst hx1
                  exact ⟨t, rfl⟩
                | cons b bs =>
                  injection hx with hx1 hx2
                  cases hx2
            | succ d2 =>
              have : sub = [] := by
                rw [show ([c] : Str).drop (d2 + 1) = [] by simp] at hd
                exact (isPrefixOf_nil_iff sub).mp hd
              subst this
              exact ⟨0, by simp [List.isPrefixOf]⟩
          | cons l2 r2 =>
            rw [hsp2] at hl
            rcases List.mem_cons.mp hl with hle | hlr
            · subst hle
              obtain ⟨x, hx⟩ := splitlinesGo_head_append t l2 r2 hsp2
              rw [hx]
              have : occursIn sub ((c :: l2) ++ x) :=
                occursIn_append_left sub (c :: l2) x ho
              simpa using this
            · have := ih t (by simp at hs; omega) l
                (by rw [hsp2]; exact List.mem_cons_of_mem l2 hlr) ho
              exact occursIn_cons sub c t this
  intro s l hl ho
  exact main s.length s (le_refl _) l hl ho

theorem resolveReplace_ok_of_selector (p : Nat) (content old new : Str)
    (prm : ReplaceParams)
    (hsel : prm.lineNumbers ≠ [] ∨ prm.lineRange ≠ none ∨ prm.lineAll = true) :
    ∃ nc, resolveReplace p content old new prm = .ok nc := by
  unfold resolveReplace
  by_cases hla : prm.lineAll = true
  · rw [hla]
    simp only [Bool.not_true, Bool.false_eq_true, if_false]
    by_cases hrx : prm.regex = true
    · rw [hrx]
      exact ⟨_, rfl⟩
    · rw [Bool.eq_false_iff.mpr hrx]
      exact ⟨_, rfl⟩
  · rw [Bool.eq_false_iff.mpr hla]
    simp only [Bool.not_false, if_true]
    by_cases hln : prm.lineNumbers.isEmpty = true
    · rw [hln]
      simp only [Bool.not_true, Bool.false_eq_true, if_false]
      obtain ⟨lr, hlr⟩ : ∃ x, prm.lineRange = x := ⟨_, rfl⟩
      cases lr with
      | some se =>
        obtain ⟨s, e⟩ := se
        rw [hlr]
        exact ⟨_, rfl⟩
      | none =>
        exfalso
        rcases hsel with h1 | h2 | h3
        · exact h1 (by simpa [List.isEmpty_iff] using hln)
        · exact h2 hlr
        · exact hla h3
    · rw [Bool.eq_false_iff.mpr hln]
      simp only [Bool.not_false, if_true]
      exact ⟨_, rfl⟩

/-- Claim C10 counterexample: a matchless selector-scoped replace is not
always a no-op on the text: with line_all on a content ending in a
newline and an old_str occurring nowhere, the call succeeds, records
history, and rewrites the file — but to the content without its
trailing newline, because the line_all literal branch re-splits with
str.splitlines. -/
theorem matchless_line_all_not_noop_counterexample :
    (strReplaceMethod
        (EditorState.mk (fun q => if q = 0 then some ['a', '\n'] else none) (fun _ => []))
        0 ['x'] (some ['y']) (ReplaceParams.mk [] none true [] none false)).2 = none ∧
    (strReplaceMethod
        (EditorState.mk (fun q => if q = 0 then some ['a', '\n'] else none) (fun _ => []))
        0 ['x'] (some ['y']) (ReplaceParams.mk [] none true [] none false)).1.files 0 =
      some ['a'] ∧
    (strReplaceMethod
        (EditorState.mk (fun q => if q = 0 then some ['a', '\n'] else none) (fun _ => []))
        0 ['x'] (some ['y']) (ReplaceParams.mk [] none true [] none false)).1.history 0 =
      [['a', '\n']] ∧
    pyCount ['a', '\n'] ['x'] = 0 ∧ (some ['a'] : Option Str) ≠ some ['a', '\n'] := by
  have hsp : splitlinesGo ['a', '\n'] = [['a']] := by
    simp [splitlinesGo, lineBoundary, dropLf]
  have hmap : joinNl ((splitlinesGo ['a', '\n']).map (fun l => pyReplace l ['x'] ['y'])) =
      ['a'] := by
    rw [hsp]
    decide
  refine ⟨rfl, ?_, ?_, by decide, by decide⟩
  · show some (joinNl ((splitlinesGo ['a', '\n']).map (fun l => pyReplace l ['x'] ['y']))) =
      some ['a']
    rw [hmap]
  · rfl

/-- Claim C10 (amended): with any selector other than the default
FirstOccurrence active and in bounds, str_replace never fails with
NotFound or AmbiguousMatch (its only failures are validation errors or
the empty-separator error); a literal matchless call succeeds, writes
the file, and records a history entry, where for LineNumbers and
LineRange the written text equals the tab-expanded content unchanged (a
true no-op on the text), for line_all it equals the splitlines
decomposition rejoined with newline (which may drop a trailing line
terminator), and the delete selectors always rewrite with their lines
removed regardless of old_str. -/
theorem selector_scoped_replace (st : EditorState) (p : Nat)
    (oldStr : Str) (newStr : Option Str) (prm : ReplaceParams) (raw : Str)
    (hf : st.files p = some raw) :
    (∀ st1 e, selectorActive prm →
      strReplaceMethod st p oldStr newStr prm = (st1, some e) →
      (∃ kind b n, e = .invalidLines kind b n) ∨
      (∃ kind s t, e = .rangeOrder kind s t) ∨ e = .emptySeparator) ∧
    (paramsOk prm (splitNl (expandtabs raw)).length → prm.regex = false →
      prm.lineAll = false → prm.deleteLines = [] → prm.deleteRange = none →
      pyCount (expandtabs raw) (expandtabs oldStr) = 0 →
      prm.lineNumbers ≠ [] ∨ prm.lineRange ≠ none →
      strReplaceMethod st p oldStr newStr prm =
        (pushHist (writeFile st p (expandtabs raw)) p (expandtabs raw), none)) ∧
    (paramsOk prm (splitNl (expandtabs raw)).length → prm.regex = false →
      prm.lineAll = true → prm.deleteLines = [] → prm.deleteRange = none →
      pyCount (expandtabs raw) (expandtabs oldStr) = 0 →
      strReplaceMethod st p oldStr newStr prm =
        (pushHist (writeFile st p (joinNl (splitlinesGo (expandtabs raw)))) p
          (expandtabs raw), none)) ∧
    (paramsOk prm (splitNl (expandtabs raw)).length → prm.deleteLines ≠ [] →
      strReplaceMethod st p oldStr newStr prm =
        (pushHist (writeFile st p
          (joinNl (deleteByNumbers (splitNl (expandtabs raw)) prm.deleteLines))) p
          (expandtabs raw), none)) ∧
    (paramsOk prm (splitNl (expandtabs raw)).length → prm.deleteLines = [] →
      ∀ s e2, prm.deleteRange = some (s, e2) →
      strReplaceMethod st p oldStr newStr prm =
        (pushHist (writeFile st p
          (joinNl (deleteByRange (splitNl (expandtabs raw)) s e2))) p
          (expandtabs raw), none)) := by
  have h1 : strReplaceMethod st p oldStr newStr prm =
      (match validateParams prm (splitNl (expandtabs raw)).length with
      | some e => (st, some e)
      | none =>
        if !prm.deleteLines.isEmpty then
          (pushHist (writeFile st p
            (joinNl (deleteByNumbers (splitNl (expandtabs raw)) prm.deleteLines))) p
            (expandtabs raw), none)
        else
          match prm.deleteRange with
          | some (s, e2) =>
            (pushHist (writeFile st p
              (joinNl (deleteByRange (splitNl (expandtabs raw)) s e2))) p
              (expandtabs raw), none)
          | none =>
            match resolveReplace p (expandtabs raw) (expandtabs oldStr)
                (optExpand newStr) prm with
            | .error e => (st, some e)
            | .ok newContent =>
              if (expandtabs oldStr).isEmpty then
                (pushHist (writeFile st p newContent) p (expandtabs raw),
                  some ToolErr.emptySeparator)
              else (pushHist (writeFile st p newContent) p (expandtabs raw), none)) := by
    simp only [strReplaceMethod, hf]
  have holdne : pyCount (expandtabs raw) (expandtabs oldStr) = 0 →
      expandtabs oldStr ≠ [] := by
    intro hc he
    rw [he] at hc
    unfold pyCount at hc
    simp at hc
  have hnomatch : pyCount (expandtabs raw) (expandtabs oldStr) = 0 →
      ∀ l, l ∈ splitNl (expandtabs raw) →
        pyReplace l (expandtabs oldStr)
          (optExpand newStr) = l := by
    intro hc l hl
    have hne := holdne hc
    apply pyReplace_id_of_not_occurs l (expandtabs oldStr) _ hne
    intro ho
    have := occursIn_of_mem_splitNl (expandtabs oldStr) (expandtabs raw) l hl ho
    exact (pyCount_zero_iff (expandtabs raw) (expandtabs oldStr) hne).mp hc this
  refine ⟨?_, ?_, ?_, ?_, ?_⟩
  · intro st1 e hsel h
    rcases strReplaceMethod_shape st p oldStr newStr prm with
      ⟨e2, hm, hcase⟩ | ⟨raw2, hraw2, hval, hbr⟩
    · rw [hm] at h
      injection h with ha hb
      injection hb with hb2
      subst hb2
      rcases hcase with ⟨hnone, _⟩ | ⟨raw2, hraw2, hvc⟩
      · rw [hf] at hnone
        cases hnone
      · rcases hvc with hvs | ⟨hvn, hdl, hdr, hres⟩
        · rcases validateParams_some_spec prm _ e2 hvs with
            ⟨kind, b, hb1, _, _⟩ | ⟨kind, s, t, hb1, _, _⟩
          · exact Or.inl ⟨kind, b, _, hb1⟩
          · exact Or.inr (Or.inl ⟨kind, s, t, hb1⟩)
        · exfalso
          have hsel2 : prm.lineNumbers ≠ [] ∨ prm.lineRange ≠ none ∨ prm.lineAll = true := by
            rcases hsel with h1 | h2 | h3 | h4 | h5
            · exact Or.inl h1
            · exact Or.inr (Or.inl h2)
            · exact Or.inr (Or.inr h3)
            · exact absurd (by simpa [List.isEmpty_iff] using hdl) h4
            · exact absurd hdr h5
          obtain ⟨nc, hok⟩ := resolveReplace_ok_of_selector p (expandtabs raw2)
            (expandtabs oldStr)
            (optExpand newStr) prm hsel2
          rw [hok] at hres
          cases hres
    · rcases hbr with ⟨_, hm⟩ | ⟨s, e2m, _, _, hm⟩ | ⟨nc, _, _, _, hm⟩
      · rw [hm] at h
        injection h with ha hb
        cases hb
      · rw [hm] at h
        injection h with ha hb
        cases hb
      · by_cases hoe : (expandtabs oldStr).isEmpty = true
        · rw [if_pos hoe] at hm
          rw [hm] at h
          injection h with ha hb
          injection hb with hb2
          subst hb2
          exact Or.inr (Or.inr rfl)
        · rw [if_neg hoe] at hm
          rw [hm] at h
          injection h with ha hb
          cases hb
  · intro hok hrx hla hdl hdr hc hsel
    have hval : validateParams prm (splitNl (expandtabs raw)).length = none :=
      (validateParams_none_iff _ _).mpr hok
    rw [h1, hval, if_neg (by simp [hdl]), hdr]
    have hres : resolveReplace p (expandtabs raw) (expandtabs oldStr)
        (optExpand newStr) prm =
        .ok (expandtabs raw) := by
      simp only [resolveReplace]
      rw [hla]
      simp only [Bool.not_false, if_true]
      by_cases hln : prm.lineNumbers.isEmpty = true
      · rw [hln]
        simp only [Bool.not_true, Bool.false_eq_true, if_false]
        obtain ⟨lr, hlr⟩ : ∃ x, prm.lineRange = x := ⟨_, rfl⟩
        cases lr with
        | none =>
          exfalso
          rcases hsel with hs1 | hs2
          · exact hs1 (by simpa [List.isEmpty_iff] using hln)
          · exact hs2 hlr
        | some se =>
          obtain ⟨s, e2⟩ := se
          rw [hlr]
          have happ : applyLines (splitNl (expandtabs raw)) (pyRange (s - 1) e2)
              (lineSub prm.regex (expandtabs oldStr)
                (optExpand newStr)) =
              splitNl (expandtabs raw) := by
            apply applyLines_id
            intro l hl
            simp only [lineSub, hrx]
            simp only [Bool.false_eq_true, if_false]
            exact hnomatch hc l hl
          show Except.ok (joinNl (applyLines (splitNl (expandtabs raw)) (pyRange (s - 1) e2)
            (lineSub prm.regex (expandtabs oldStr) (optExpand newStr)))) = _
          rw [happ, joinNl_splitNl]
      · rw [Bool.eq_false_iff.mpr hln]
        simp only [Bool.not_false, if_true]
        have happ : applyLines (splitNl (expandtabs raw))
            (prm.lineNumbers.map (fun i => i - 1))
            (lineSub prm.regex (expandtabs oldStr)
              (optExpand newStr)) =
            splitNl (expandtabs raw) := by
          apply applyLines_id
          intro l hl
          simp only [lineSub, hrx]
          simp only [Bool.false_eq_true, if_false]
          exact hnomatch hc l hl
        rw [happ, joinNl_splitNl]
    rw [hres]
    show (if (expandtabs oldStr).isEmpty = true then
        (pushHist (writeFile st p (expandtabs raw)) p (expandtabs raw),
          some ToolErr.emptySeparator)
      else (pushHist (writeFile st p (expandtabs raw)) p (expandtabs raw), none)) = _
    rw [if_neg (by simpa [List.isEmpty_iff] using holdne hc)]
  · intro hok hrx hla hdl hdr hc
    have hval : validateParams prm (splitNl (expandtabs raw)).length = none :=
      (validateParams_none_iff _ _).mpr hok
    rw [h1, hval, if_neg (by simp [hdl]), hdr]
    have hres : resolveReplace p (expandtabs raw) (expandtabs oldStr)
        (optExpand newStr) prm =
        .ok (joinNl (splitlinesGo (expandtabs raw))) := by
      simp only [resolveReplace]
      rw [hla]
      simp only [Bool.not_true, Bool.false_eq_true, if_false]
      rw [hrx]
      simp only [Bool.false_eq_true, if_false]
      have hmap : (splitlinesGo (expandtabs raw)).map
          (fun l => pyReplace l (expandtabs oldStr)
            (optExpand newStr)) =
          splitlinesGo (expandtabs raw) := by
        have hid : ∀ ls : List Str, (∀ l, l ∈ ls →
            pyReplace l (expandtabs oldStr)
              (optExpand newStr) = l) →
            ls.map (fun l => pyReplace l (expandtabs oldStr)
              (optExpand newStr)) = ls := by
          intro ls h
          induction ls with
          | nil => rfl
          | cons a t ih =>
            simp only [List.map_cons, h a (List.mem_cons_self _ _), List.cons.injEq,
              true_and]
            exact ih (fun l hl => h l (List.mem_cons_of_mem a hl))
        apply hid
        intro l hl
        have hne := holdne hc
        apply pyReplace_id_of_not_occurs l (expandtabs oldStr) _ hne
        intro ho
        have := occursIn_of_mem_splitlinesGo (expandtabs oldStr) (expandtabs raw) l hl ho
        exact (pyCount_zero_iff (expandtabs raw) (expandtabs oldStr) hne).mp hc this
      rw [hmap]
    rw [hres]
    show (if (expandtabs oldStr).isEmpty = true then
        (pushHist (writeFile st p (joinNl (splitlinesGo (expandtabs raw)))) p (expandtabs raw),
          some ToolErr.emptySeparator)
      else (pushHist (writeFile st p (joinNl (splitlinesGo (expandtabs raw)))) p
        (expandtabs raw), none)) = _
    rw [if_neg (by simpa [List.isEmpty_iff] using holdne hc)]
  · intro hok hdl
    have hval : validateParams prm (splitNl (expandtabs raw)).length = none :=
      (validateParams_none_iff _ _).mpr hok
    rw [h1, hval, if_pos (by simp [List.isEmpty_iff]; exact hdl)]
  · intro hok hdl s e2 hdr
    have hval : validateParams prm (splitNl (expandtabs raw)).length = none :=
      (validateParams_none_iff _ _).mpr hok
    rw [h1, hval, if_neg (by simp [hdl]), hdr]

/-- Witness for C10 (amended): the delete_lines selector on a concrete
two-line file succeeds with the line removed and history recorded, with
an old_str that occurs nowhere. -/
theorem selector_scoped_replace_witness :
    strReplaceMethod
      (EditorState.mk (fun q => if q = 0 then some ['a', '\n', 'b'] else none) (fun _ => []))
      0 ['x'] (some ['y']) (ReplaceParams.mk [] none false [(1 : Int)] none false) =
      (pushHist (writeFile
        (EditorState.mk (fun q => if q = 0 then some ['a', '\n', 'b'] else none)
          (fun _ => []))
        0 (joinNl (deleteByNumbers (splitNl (expandtabs ['a', '\n', 'b'])) [(1 : Int)]))) 0
        (expandtabs ['a', '\n', 'b']), none) :=
  (selector_scoped_replace _ 0 ['x'] (some ['y'])
      (ReplaceParams.mk [] none false [(1 : Int)] none false) ['a', '\n', 'b'] rfl).2.2.2.1
    (by simp [paramsOk, boundsOk, rangeOk]; decide) (by decide)

end OHEd
